import Mathlib

/-!
Verification development for the `local-share` share server
(`share_server.go`).  The Go code is shallowly embedded: pure string and
path manipulation is translated function-by-function, stateful handlers
become explicit state-passing functions, machine time is modelled as
integer nanoseconds, and the filesystem is modelled as a finite directory
tree.  The embedding fixes `runtime.GOOS = "linux"`, so the
Windows-specific branches of the source are dead code and are noted in
comments where they occur.
-/

namespace LocalShare

/-! ### Go string helpers (strings package, on ASCII data) -/

/-- `unicode.IsSpace` restricted to the ASCII range, which is what
`strings.TrimSpace` tests on the byte strings the server handles. -/
def isGoSpace (c : Char) : Bool :=
  c = ' ' || c = '\t' || c = '\n' || c = '\r' || c = '\x0b' || c = '\x0c'

/-- `strings.TrimSpace`. -/
def goTrimSpace (s : String) : String :=
  ⟨((s.data.dropWhile isGoSpace).reverse.dropWhile isGoSpace).reverse⟩

/-- `strings.Trim(s, cutset)` for a single-character cutset. -/
def goTrimChar (s : String) (c : Char) : String :=
  ⟨((s.data.dropWhile (· = c)).reverse.dropWhile (· = c)).reverse⟩

/-- `strings.HasPrefix`. -/
def strStartsWith (s p : String) : Bool :=
  p.data.isPrefixOf s.data

/-- `strings.HasSuffix`. -/
def strEndsWith (s p : String) : Bool :=
  p.data.isSuffixOf s.data

/-- `strings.TrimPrefix`. -/
def goTrimPre (s p : String) : String :=
  if strStartsWith s p then ⟨s.data.drop p.data.length⟩ else s

/-- `strings.TrimSuffix`. -/
def goTrimSuf (s p : String) : String :=
  if strEndsWith s p then ⟨s.data.take (s.data.length - p.data.length)⟩ else s

/-- `strings.Contains(s, "/")`, the only containment test the handlers use. -/
def containsSlash (s : String) : Bool :=
  s.data.any (· = '/')

/-! ### Go path helpers (`path` and `path/filepath` on unix)

On unix `filepath.Clean`, `filepath.Join`, `filepath.Base` agree with the
slash-path versions in package `path`, and `filepath.ToSlash` /
`filepath.FromSlash` are the identity. -/

/-- Split a character list on `'/'`, keeping empty components, exactly like
`strings.Split(s, "/")`. -/
def splitSlashCs : List Char → List (List Char)
  | [] => [[]]
  | c :: rest =>
    let r := splitSlashCs rest
    if c = '/' then [] :: r
    else (c :: r.headD []) :: r.tail

/-- One step of the `filepath.Clean` element stack: empty and `.`
components are dropped, `..` pops the last real component (at an
absolute root it is dropped, and in a relative path with nothing left to
pop it is kept), anything else is appended. -/
def cleanStep (rooted : Bool) (st : List (List Char)) (c : List Char) : List (List Char) :=
  if c = [] || c = ['.'] then st
  else if c = ['.', '.'] then
    match st.getLast? with
    | some t => if t = ['.', '.'] then st ++ [c] else st.dropLast
    | none => if rooted then st else [c]
  else st ++ [c]

/-- The component stack `filepath.Clean` leaves after processing `cs`. -/
def cleanStack (rooted : Bool) (cs : List (List Char)) : List (List Char) :=
  cs.foldl (cleanStep rooted) []

/-- Re-join cleaned components with single slashes. -/
def joinComps : List (List Char) → List Char
  | [] => []
  | [c] => c
  | c :: rest => c ++ '/' :: joinComps rest

/-- `filepath.Clean` (unix rules): lexically normalise a path. -/
def pathClean (p : String) : String :=
  match p.data with
  | [] => "."
  | c :: rest =>
    let rooted : Bool := c == '/'
    let st := cleanStack rooted (splitSlashCs (c :: rest))
    if rooted then
      if st = [] then "/" else ⟨'/' :: joinComps st⟩
    else
      if st = [] then "." else ⟨joinComps st⟩

/-- `filepath.Join(a, b)` (unix): empty elements are skipped, the rest are
joined with a slash and cleaned. -/
def goJoin (a b : String) : String :=
  if a = "" then (if b = "" then "" else pathClean b)
  else pathClean (a ++ "/" ++ b)

/-- `path.Base` / unix `filepath.Base`. -/
def pathBase (p : String) : String :=
  if p = "" then "."
  else
    let cs := p.data.reverse.dropWhile (· = '/')
    let r := cs.takeWhile (· ≠ '/')
    if r = [] then "/" else ⟨r.reverse⟩

/-- `path.Dir`. -/
def pathDir (p : String) : String :=
  pathClean ⟨(p.data.reverse.dropWhile (· ≠ '/')).reverse⟩

/-- `path.Ext`. -/
def pathExt (p : String) : String :=
  let seg := p.data.reverse.takeWhile (· ≠ '/')
  let upto := seg.takeWhile (· ≠ '.')
  if upto.length = seg.length then "" else ⟨(upto ++ ['.']).reverse⟩

/-- `path.Join(a, b)`: identical to `filepath.Join` on unix. -/
def pathJoin (a b : String) : String := goJoin a b

/-! ### The path sandbox (`safeJoin`, share_server.go:1737) -/

/-- The prefix `safeJoin` checks against: the cleaned root followed by
exactly one path separator (the root itself when it already ends in one). -/
def safeJoinPre (r : String) : String :=
  if strEndsWith r "/" then r else r ++ "/"

/-- `safeJoin(sharedRoot, subPath)` (share_server.go:1737-1778), with
`runtime.GOOS = "linux"`: the Windows volume-root special case and the
case-insensitive comparison branch are dead code.  `filepath.FromSlash`
is the identity on unix. -/
def safeJoin (sharedRoot subPath : String) : String × Bool :=
  let root := pathClean sharedRoot
  let sub := goTrimSpace subPath
  let full := pathClean (goJoin root sub)
  let pre := safeJoinPre root
  if full = root then (full, true)
  else if strStartsWith full pre then (full, true)
  else ("", false)

/-! Rootedness is preserved by cleaning: needed to show `safeJoin` returns
absolute paths for absolute roots. -/

theorem data_append (a b : String) : (a ++ b).data = a.data ++ b.data := rfl

theorem strStartsWith_iff (s p : String) :
    strStartsWith s p = true ↔ p.data <+: s.data :=
  List.isPrefixOf_iff_prefix

theorem strStartsWith_slash_iff (p : String) :
    strStartsWith p "/" = true ↔ ∃ t, p.data = '/' :: t := by
  rw [strStartsWith_iff]
  show ['/'] <+: p.data ↔ _
  cases h : p.data with
  | nil => simp
  | cons c t =>
    rw [List.cons_prefix_cons]
    constructor
    · rintro ⟨hc, -⟩
      exact ⟨t, by rw [hc]⟩
    · rintro ⟨t', ht⟩
      cases ht
      exact ⟨rfl, List.nil_prefix⟩

theorem pathClean_data_cons (c : Char) (rest : List Char) (p : String)
    (hp : p.data = c :: rest) :
    pathClean p =
      (let rooted : Bool := c == '/'
       let st := cleanStack rooted (splitSlashCs (c :: rest))
       if rooted then
         if st = [] then "/" else ⟨'/' :: joinComps st⟩
       else
         if st = [] then "." else ⟨joinComps st⟩) := by
  unfold pathClean
  rw [hp]

theorem pathClean_rooted (p : String) (hp : strStartsWith p "/" = true) :
    strStartsWith (pathClean p) "/" = true := by
  obtain ⟨t, ht⟩ := (strStartsWith_slash_iff p).1 hp
  rw [pathClean_data_cons '/' t p ht]
  simp only [beq_self_eq_true, if_true]
  split
  · exact (strStartsWith_slash_iff _).2 ⟨[], rfl⟩
  · exact (strStartsWith_slash_iff _).2 ⟨_, rfl⟩

theorem mem_cleanStack_aux (rooted : Bool) (cs : List (List Char)) :
    ∀ st : List (List Char), (∀ x ∈ st, x ≠ []) →
      ∀ x ∈ cs.foldl (cleanStep rooted) st, x ≠ [] := by
  induction cs with
  | nil => intro st h; simpa using h
  | cons c cs ih =>
    intro st h
    rw [List.foldl_cons]
    apply ih
    intro x hx
    unfold cleanStep at hx
    split at hx
    · exact h x hx
    · split at hx
      · split at hx
        · split at hx
          · rcases List.mem_append.1 hx with h1 | h1
            · exact h x h1
            · simp only [List.mem_singleton] at h1; subst h1; simp_all
          · exact h x (List.dropLast_subset _ hx)
        · split at hx
          · exact h x hx
          · simp only [List.mem_singleton] at hx; subst hx; simp_all
      · rcases List.mem_append.1 hx with h1 | h1
        · exact h x h1
        · simp only [List.mem_singleton] at h1
          subst h1
          intro hc
          simp_all

theorem mem_cleanStack_ne_nil (rooted : Bool) (cs : List (List Char)) :
    ∀ x ∈ cleanStack rooted cs, x ≠ [] :=
  mem_cleanStack_aux rooted cs [] (by simp)

theorem joinComps_ne_nil (st : List (List Char)) (hst : st ≠ [])
    (h : ∀ x ∈ st, x ≠ []) : joinComps st ≠ [] := by
  match st with
  | [c] =>
    simpa [joinComps] using h c (by simp)
  | c :: d :: rest =>
    simp [joinComps]

theorem pathClean_ne_empty (p : String) : pathClean p ≠ "" := by
  cases hp : p.data with
  | nil =>
    unfold pathClean
    rw [hp]
    decide
  | cons c rest =>
    rw [pathClean_data_cons c rest p hp]
    simp only []
    split
    · split
      · decide
      · simp [String.ext_iff]
    · split
      · decide
      · rename_i hne2
        simp only [ne_eq, String.ext_iff]
        show ¬(joinComps _ = [])
        exact joinComps_ne_nil _ hne2 (mem_cleanStack_ne_nil _ _)

/-- C1: whenever `safeJoin(root, subPath)` returns `ok = true`, the result
is the cleaned join of the cleaned root and the trimmed sub-path, and it
is exactly the cleaned root or has the cleaned root followed by exactly
one path separator as a prefix; for an absolute root the result is
absolute.  No input — including `..` segments, absolute-looking inputs,
or inputs with embedded separators — can make `safeJoin` return `true`
for a path outside the root. -/
theorem safeJoin_confines (root sub : String)
    (hok : (safeJoin root sub).2 = true) :
    (safeJoin root sub).1 = pathClean (goJoin (pathClean root) (goTrimSpace sub)) ∧
    ((safeJoin root sub).1 = pathClean root ∨
      strStartsWith (safeJoin root sub).1 (safeJoinPre (pathClean root)) = true) ∧
    (strStartsWith root "/" = true → strStartsWith (safeJoin root sub).1 "/" = true) := by
  unfold safeJoin at *
  by_cases h1 : pathClean (goJoin (pathClean root) (goTrimSpace sub)) = pathClean root
  · simp only [h1, if_pos rfl]
    refine ⟨h1.symm ▸ rfl, Or.inl rfl, fun hr => ?_⟩
    exact pathClean_rooted root hr
  · simp only [if_neg h1] at hok ⊢
    by_cases h2 : strStartsWith (pathClean (goJoin (pathClean root) (goTrimSpace sub)))
        (safeJoinPre (pathClean root)) = true
    · simp only [h2, if_pos rfl]
      refine ⟨rfl, Or.inr h2, fun hr => ?_⟩
      apply pathClean_rooted
      unfold goJoin
      have hcr : pathClean root ≠ "" := pathClean_ne_empty root
      rw [if_neg hcr]
      apply pathClean_rooted
      obtain ⟨t, ht⟩ := (strStartsWith_slash_iff _).1 (pathClean_rooted root hr)
      exact (strStartsWith_slash_iff _).2 ⟨_, by
        rw [data_append, data_append, ht]; rfl⟩
    · simp only [h2] at hok
      simp at hok

/-- Witness for C1 at a concrete accepted input. -/
theorem safeJoin_confines_witness :
    (safeJoin "/srv/share" "docs/a.txt").2 = true ∧
    ((safeJoin "/srv/share" "docs/a.txt").1 = pathClean "/srv/share" ∨
      strStartsWith (safeJoin "/srv/share" "docs/a.txt").1
        (safeJoinPre (pathClean "/srv/share")) = true) := by
  refine ⟨by decide, (safeJoin_confines "/srv/share" "docs/a.txt" (by decide)).2.1⟩

/-! ### Time, durations and auth constants (share_server.go:44-48)

Go `time.Time` / `time.Duration` are modelled as integer nanoseconds;
`t.After(u)` is `t > u`, `t.Sub(u)` is `t - u`. -/

def nsSecond : Int := 1000000000

def nsMinute : Int := 60 * nsSecond

def authTokenTTL : Int := 10 * nsMinute

def authTokenRenewBefore : Int := 2 * nsMinute

def authRateWindow : Int := 10 * nsSecond

def authRateMaxRequestsPerWindow : Int := 5

/-! ### Auth manager (share_server.go:50-59, 236-470) -/

/-- SHA-256 of the access pass (`accessPassHash`, share_server.go:279-283),
modelled as an injective wrapper around the pass: the server only ever
compares digests for equality (`subtle.ConstantTimeCompare` of two 32-byte
digests is an equality test), and distinct passes yielding distinct
digests is exactly the SHA-256 collision-freeness the design relies on. -/
structure PassHash where
  ofPass : String
deriving DecidableEq, Repr

def accessPassHash (pass : String) : PassHash := ⟨pass⟩

/-- `authTokenEntry` (share_server.go:50-54). -/
structure authTokenEntry where
  expiresAt : Int
  clientIP : String
  passHash : PassHash
deriving DecidableEq, Repr

/-- `rateWindowState` (share_server.go:56-59).  `windowStart = none`
models Go's zero `time.Time` (`IsZero`). -/
structure rateWindowState where
  windowStart : Option Int
  count : Int
deriving DecidableEq, Repr

def rateZero : rateWindowState := ⟨none, 0⟩

/-- Go's `map[string]authTokenEntry` as a lookup function. -/
def TokenMap : Type := String → Option authTokenEntry

/-- Go's `map[string]rateWindowState` as a lookup function; a missing key
reads as the zero value, exactly like a Go map read. -/
def RateMap : Type := String → rateWindowState

def tmEmpty : TokenMap := fun _ => none

def tmInsert (m : TokenMap) (k : String) (v : authTokenEntry) : TokenMap :=
  fun k' => if k' = k then some v else m k'

def tmErase (m : TokenMap) (k : String) : TokenMap :=
  fun k' => if k' = k then none else m k'

/-- The loop body of `authSweepLocked`: drop every expired token. -/
def tmSweep (m : TokenMap) (now : Int) : TokenMap :=
  fun k' => match m k' with
  | some v => if now > v.expiresAt then none else some v
  | none => none

/-- `authSweepLocked` (share_server.go:251-261): amortised expired-token
sweep, run at most once per minute. -/
def authSweepLocked (tokens : TokenMap) (lastSweep now : Int) : TokenMap × Int :=
  if now - lastSweep < 60 * nsSecond then (tokens, lastSweep)
  else (tmSweep tokens now, now)

def rmEmpty : RateMap := fun _ => rateZero

def rmInsert (m : RateMap) (k : String) (v : rateWindowState) : RateMap :=
  fun k' => if k' = k then v else m k'

/-- The reset test of `authRateAllowedLocked`:
`st.WindowStart.IsZero() || now.Sub(st.WindowStart) >= authRateWindow`. -/
def windowExpired (st : rateWindowState) (now : Int) : Bool :=
  match st.windowStart with
  | none => true
  | some ws => decide (now - ws ≥ authRateWindow)

/-- `authRateAllowedLocked` (share_server.go:236-249). -/
def authRateAllowedLocked (m : RateMap) (ip : String) (now : Int) : Bool × RateMap :=
  let st0 := m ip
  let st1 :=
    if windowExpired st0 now then { windowStart := some now, count := 0 } else st0
  if st1.count ≥ authRateMaxRequestsPerWindow then
    (false, rmInsert m ip st1)
  else
    (true, rmInsert m ip { st1 with count := st1.count + 1 })

/-- `authRateGCLocked` (share_server.go:263-277): amortised deletion of
stale per-IP windows; deleting a Go map key makes later reads return the
zero value, so deletion is modelled as resetting to `rateZero`. -/
def authRateGCLocked (m : RateMap) (lastRateGC now : Int) : RateMap × Int :=
  if now - lastRateGC < 60 * nsSecond then (m, lastRateGC)
  else
    (fun ip' => match (m ip').windowStart with
      | none => rateZero
      | some ws => if now - ws > 5 * authRateWindow then rateZero else m ip',
     now)

/-- `validateAndMaybeRenewToken` (share_server.go:296-324). -/
def validateAndMaybeRenewToken (tokens : TokenMap) (lastSweep : Int)
    (token ip : String) (ph : PassHash) (now : Int) : Bool × TokenMap × Int :=
  if token = "" then (false, tokens, lastSweep)
  else
    let swept := authSweepLocked tokens lastSweep now
    match swept.1 token with
    | none => (false, swept.1, swept.2)
    | some entry =>
      if now > entry.expiresAt then (false, tmErase swept.1 token, swept.2)
      else if entry.passHash ≠ ph then (false, tmErase swept.1 token, swept.2)
      else if entry.clientIP ≠ "" ∧ ip ≠ "" ∧ entry.clientIP ≠ ip then
        (false, swept.1, swept.2)
      else if entry.expiresAt - now ≤ authTokenRenewBefore then
        (true, tmInsert swept.1 token { entry with expiresAt := now + authTokenTTL }, swept.2)
      else (true, swept.1, swept.2)

/-- Outcome of `requireAuth`: pass the request on (with the possibly
renewed token table), or answer 401 `AUTH_REQUIRED`. -/
inductive AuthGate where
  | allow (tokens : TokenMap) (lastSweep : Int)
  | deny (status : Nat)

/-- `requireAuth` (share_server.go:326-350).  `passCfg` is the result of
`getAccessPassFromSettings` (the settings store is an external
collaborator); `none` means no pass is configured and the settings-error
500 path is outside the model. -/
def requireAuth (passCfg : Option String) (tokens : TokenMap) (lastSweep : Int)
    (headerToken queryToken ip : String) (now : Int) : AuthGate :=
  match passCfg with
  | none => .allow tokens lastSweep
  | some pass =>
    let t0 := goTrimSpace headerToken
    let token := if t0 = "" then goTrimSpace queryToken else t0
    let r := validateAndMaybeRenewToken tokens lastSweep token ip (accessPassHash pass) now
    if r.1 then .allow r.2.1 r.2.2 else .deny 401

/-- `isValidAccessPass` (share_server.go:140-157). -/
def isValidAccessPass (pass : String) : Bool :=
  if pass = "" then true
  else if pass.data.length < 1 || pass.data.length > 16 then false
  else pass.data.all fun c =>
    ('0' ≤ c && c ≤ '9') || ('a' ≤ c && c ≤ 'z') || ('A' ≤ c && c ≤ 'Z')

/-- The response of `handleAuth`, with only the fields the handler sets. -/
structure AuthResponse where
  status : Nat
  token : Option String := none
  code : Option String := none
  retryAfter : Option Int := none
  expiresIn : Option Int := none
deriving DecidableEq, Repr

/-- The auth-manager state guarded by `authMu`. -/
structure AuthState where
  tokens : TokenMap
  rateMap : RateMap
  lastSweep : Int
  lastRateGC : Int

/-- `handleAuth` (share_server.go:385-470).  `body` is the parsed `pass`
field (`none` = malformed JSON), `freshToken` the token `crypto/rand`
would produce, and the `rand`-failure 500 path is outside the model. -/
def handleAuth (passCfg : Option String) (st : AuthState) (method ip : String)
    (now : Int) (body : Option String) (freshToken : String) :
    AuthResponse × AuthState :=
  if method ≠ "POST" then ({ status := 405 }, st)
  else
    match passCfg with
    | none => ({ status := 200, token := some "" }, st)
    | some passSetting =>
      let ra := authRateAllowedLocked st.rateMap ip now
      let gc := authRateGCLocked ra.2 st.lastRateGC now
      let st1 : AuthState := { st with rateMap := gc.1, lastRateGC := gc.2 }
      if ¬ra.1 then
        ({ status := 429, code := some "AUTH_RATE_LIMITED",
           retryAfter := some (authRateWindow / nsSecond) }, st1)
      else
        match body with
        | none => ({ status := 400 }, st1)
        | some rawPass =>
          let input := goTrimSpace rawPass
          if input = "" then ({ status := 401, code := some "AUTH_REQUIRED" }, st1)
          else if ¬isValidAccessPass input then ({ status := 400 }, st1)
          else if input ≠ passSetting then
            -- `subtle.ConstantTimeCompare` under a length guard is string equality
            ({ status := 401, code := some "AUTH_INVALID" }, st1)
          else
            let exp := now + authTokenTTL
            let tokens1 := tmInsert st1.tokens freshToken
              { expiresAt := exp, clientIP := ip, passHash := accessPassHash passSetting }
            let sw := authSweepLocked tokens1 st1.lastSweep now
            ({ status := 200, token := some freshToken,
               expiresIn := some ((exp - now) / nsSecond) },
             { st1 with tokens := sw.1, lastSweep := sw.2 })

/-- C2: a token issued under pass `p1` fails validation once the
configured pass is any `p2 ≠ p1` — its stored pass-hash no longer equals
the hash of the live pass — and `requireAuth`, the gate every protected
endpoint calls first, answers 401.  No per-token revocation is needed:
this holds for every entry of the token table at once. -/
theorem passChange_invalidates_token
    (tokens : TokenMap) (lastSweep : Int) (p1 p2 tok q ip : String)
    (entry : authTokenEntry) (now : Int)
    (hlook : tokens tok = some entry)
    (hhash : entry.passHash = accessPassHash p1)
    (hne : p1 ≠ p2)
    (htok : goTrimSpace tok = tok)
    (hnempty : tok ≠ "") :
    (validateAndMaybeRenewToken tokens lastSweep tok ip (accessPassHash p2) now).1 = false ∧
    requireAuth (some p2) tokens lastSweep tok q ip now = .deny 401 := by
  have hneq : entry.passHash ≠ accessPassHash p2 := by
    rw [hhash]
    intro hcontra
    exact hne (congrArg PassHash.ofPass hcontra)
  have hval : (validateAndMaybeRenewToken tokens lastSweep tok ip (accessPassHash p2) now).1
      = false := by
    unfold validateAndMaybeRenewToken authSweepLocked
    rw [if_neg hnempty]
    by_cases hsw : now - lastSweep < 60 * nsSecond
    · simp only [if_pos hsw, hlook]
      by_cases hexp : now > entry.expiresAt
      · rw [if_pos hexp]
      · rw [if_neg hexp, if_pos hneq]
    · simp only [if_neg hsw, tmSweep, hlook]
      by_cases hexp : now > entry.expiresAt
      · simp only [if_pos hexp]
      · simp only [if_neg hexp]
        rw [if_pos hneq]
  refine ⟨hval, ?_⟩
  unfold requireAuth
  rw [htok]
  simp [hval, hnempty]

/-- Witness for C2 at a concrete token table, pass change `abc → xyz`. -/
theorem passChange_invalidates_token_witness :
    requireAuth (some "xyz")
      (tmInsert tmEmpty "tokenA" ⟨3 * nsMinute, "10.0.0.2", accessPassHash "abc"⟩)
      0 "tokenA" "" "10.0.0.2" nsMinute = .deny 401 :=
  (passChange_invalidates_token
    (tmInsert tmEmpty "tokenA" ⟨3 * nsMinute, "10.0.0.2", accessPassHash "abc"⟩)
    0 "abc" "xyz" "tokenA" "" "10.0.0.2"
    ⟨3 * nsMinute, "10.0.0.2", accessPassHash "abc"⟩ nsMinute
    (by rfl) rfl (by decide) (by decide) (by decide)).2

/-- C7: when validation succeeds and the token is presented within
`authTokenRenewBefore` (2 minutes) of its expiry, the stored expiry
becomes a full `authTokenTTL` (10 minutes) from the validation time;
a successful validation earlier than that window leaves the stored
entry unchanged. -/
theorem token_sliding_renewal (tokens : TokenMap) (lastSweep : Int)
    (tok ip : String) (ph : PassHash) (now : Int) (entry : authTokenEntry)
    (hlook : tokens tok = some entry)
    (hok : (validateAndMaybeRenewToken tokens lastSweep tok ip ph now).1 = true) :
    (validateAndMaybeRenewToken tokens lastSweep tok ip ph now).2.1 tok =
      some { entry with expiresAt :=
        if entry.expiresAt - now ≤ authTokenRenewBefore then now + authTokenTTL
        else entry.expiresAt } := by
  by_cases hempty : tok = ""
  · exfalso
    unfold validateAndMaybeRenewToken at hok
    rw [if_pos hempty] at hok
    exact Bool.false_ne_true hok
  unfold validateAndMaybeRenewToken authSweepLocked at hok ⊢
  rw [if_neg hempty] at hok ⊢
  by_cases hsw : now - lastSweep < 60 * nsSecond
  · -- sweep skipped: table unchanged
    simp only [if_pos hsw, hlook] at hok ⊢
    by_cases h1 : now > entry.expiresAt
    · rw [if_pos h1] at hok; exact absurd hok (by simp)
    · rw [if_neg h1] at hok ⊢
      by_cases h2 : entry.passHash ≠ ph
      · rw [if_pos h2] at hok; exact absurd hok (by simp)
      · rw [if_neg h2] at hok ⊢
        by_cases h3 : entry.clientIP ≠ "" ∧ ip ≠ "" ∧ entry.clientIP ≠ ip
        · rw [if_pos h3] at hok; exact absurd hok (by simp)
        · rw [if_neg h3] at hok ⊢
          by_cases h4 : entry.expiresAt - now ≤ authTokenRenewBefore
          · rw [if_pos h4, if_pos h4]
            simp [tmInsert]
          · rw [if_neg h4, if_neg h4]
            exact hlook
  · -- sweep ran: validation succeeded, so this token was not expired
    simp only [if_neg hsw, tmSweep, hlook] at hok ⊢
    by_cases hexp : now > entry.expiresAt
    · simp only [if_pos hexp] at hok
      exact absurd hok (by simp)
    · simp only [if_neg hexp] at hok ⊢
      by_cases h2 : entry.passHash ≠ ph
      · rw [if_pos h2] at hok; exact absurd hok (by simp)
      · rw [if_neg h2] at hok ⊢
        by_cases h3 : entry.clientIP ≠ "" ∧ ip ≠ "" ∧ entry.clientIP ≠ ip
        · rw [if_pos h3] at hok; exact absurd hok (by simp)
        · rw [if_neg h3] at hok ⊢
          by_cases h4 : entry.expiresAt - now ≤ authTokenRenewBefore
          · rw [if_pos h4, if_pos h4]
            simp [tmInsert]
          · rw [if_neg h4, if_neg h4]
            simp only [tmSweep, hlook]
            rw [if_neg hexp]

/-- Witness for C7: a token 90 seconds from expiry is renewed to a
fresh 10-minute TTL. -/
theorem token_sliding_renewal_witness :
    (validateAndMaybeRenewToken
        (tmInsert tmEmpty "t" ⟨90 * nsSecond, "", accessPassHash "p"⟩)
        0 "t" "" (accessPassHash "p") 0).2.1 "t" =
      some ⟨authTokenTTL, "", accessPassHash "p"⟩ := by
  have h := token_sliding_renewal
    (tmInsert tmEmpty "t" ⟨90 * nsSecond, "", accessPassHash "p"⟩)
    0 "t" "" (accessPassHash "p") 0 ⟨90 * nsSecond, "", accessPassHash "p"⟩
    (by rfl) (by decide)
  rw [h]
  norm_num [authTokenRenewBefore, authTokenTTL, nsMinute, nsSecond]

/-! ### C6: the per-IP auth rate limit -/

/-- Run a sequence of auth-rate checks for one client IP at the given
times, collecting each request's allow/deny verdict (the loop every
`handleAuth` call performs over the shared `authRateByIP` table). -/
def authTraceFrom (m : RateMap) (ip : String) : List Int → List Bool × RateMap
  | [] => ([], m)
  | t :: ts =>
    let r := authRateAllowedLocked m ip t
    let rest := authTraceFrom r.2 ip ts
    (r.1 :: rest.1, rest.2)

theorem rmInsert_self (m : RateMap) (ip : String) (v : rateWindowState) :
    rmInsert m ip v ip = v := by
  simp [rmInsert]

theorem authRate_step_active (m : RateMap) (ip : String) (t t0 c : Int)
    (hm : m ip = ⟨some t0, c⟩) (hw : t - t0 < authRateWindow) :
    authRateAllowedLocked m ip t =
      if 5 ≤ c then (false, rmInsert m ip ⟨some t0, c⟩)
      else (true, rmInsert m ip ⟨some t0, c + 1⟩) := by
  unfold authRateAllowedLocked windowExpired
  simp only [hm]
  have hd : decide (t - t0 ≥ authRateWindow) = false := decide_eq_false (by omega)
  simp only [hd, Bool.false_eq_true, if_false]
  rfl

/-- Inside an active window starting at `t0` with current count `c ≤ 5`,
request `i` (0-based) of the remaining trace is allowed iff `c + i < 5`. -/
theorem authTrace_inv (ip : String) (t0 : Int) :
    ∀ (ts : List Int) (m : RateMap) (c : Int),
      m ip = ⟨some t0, c⟩ → c ≤ 5 →
      (∀ t ∈ ts, t < t0 + authRateWindow) →
      (authTraceFrom m ip ts).1
        = (List.range ts.length).map (fun i : Nat => decide (c + (i : Int) < 5)) := by
  intro ts
  induction ts with
  | nil => intro m c _ _ _; simp [authTraceFrom]
  | cons t ts ih =>
    intro m c hm hc5 hin
    have hw : t - t0 < authRateWindow := by
      have := hin t (by simp)
      omega
    simp only [authTraceFrom, authRate_step_active m ip t t0 c hm hw]
    by_cases h5 : 5 ≤ c
    · have hc : c = 5 := le_antisymm hc5 h5
      subst hc
      simp only [if_pos (le_refl (5 : Int))]
      rw [ih (rmInsert m ip ⟨some t0, 5⟩) 5 (rmInsert_self m ip _) (le_refl _)
        (fun u hu => hin u (List.mem_cons_of_mem _ hu))]
      rw [List.length_cons, List.range_succ_eq_map, List.map_cons, List.map_map]
      refine congrArg₂ List.cons ?_ ?_
      · refine (decide_eq_false ?_).symm
        norm_num
      · refine List.map_congr_left fun i _ => ?_
        simp only [Function.comp]
        refine decide_eq_decide.mpr ?_
        push_cast
        constructor <;> intro <;> omega
    · simp only [if_neg h5]
      rw [ih (rmInsert m ip ⟨some t0, c + 1⟩) (c + 1) (rmInsert_self m ip _) (by omega)
        (fun u hu => hin u (List.mem_cons_of_mem _ hu))]
      rw [List.length_cons, List.range_succ_eq_map, List.map_cons, List.map_map]
      refine congrArg₂ List.cons ?_ ?_
      · refine (decide_eq_true ?_).symm
        push_cast
        omega
      · refine List.map_congr_left fun i _ => ?_
        simp only [Function.comp]
        refine decide_eq_decide.mpr ?_
        push_cast
        constructor <;> intro <;> omega

/-- C6: with an access pass configured, a fresh client IP gets exactly
the first `authRateMaxRequestsPerWindow = 5` `POST /api/auth` requests of
a 10-second window (measured from its first counted request) accepted and
every later request of that window refused; a refused rate check makes
`handleAuth` answer 429 with a 10-second retry-after hint; and once the
window has rolled over, the next request from that IP is accepted again. -/
theorem auth_rate_limit_window (m : RateMap) (ip : String) (t0 : Int) (ts : List Int)
    (hzero : m ip = rateZero)
    (hin : ∀ t ∈ ts, t0 ≤ t ∧ t < t0 + authRateWindow) :
    (authTraceFrom m ip (t0 :: ts)).1
        = (List.range (ts.length + 1)).map (fun i : Nat => decide ((i : Int) < 5)) ∧
    (∀ (pass : String) (ast : AuthState) (now : Int) (body : Option String) (ftk : String),
      (authRateAllowedLocked ast.rateMap ip now).1 = false →
      (handleAuth (some pass) ast "POST" ip now body ftk).1 =
        { status := 429, code := some "AUTH_RATE_LIMITED", retryAfter := some 10 }) ∧
    (∀ (m' : RateMap) (ws c now : Int), m' ip = ⟨some ws, c⟩ →
      now - ws ≥ authRateWindow → (authRateAllowedLocked m' ip now).1 = true) := by
  refine ⟨?_, ?_, ?_⟩
  · have hstep0 : authRateAllowedLocked m ip t0 = (true, rmInsert m ip ⟨some t0, 1⟩) := by
      unfold authRateAllowedLocked windowExpired
      simp only [hzero, rateZero]
      norm_num [authRateMaxRequestsPerWindow]
    simp only [authTraceFrom, hstep0]
    rw [authTrace_inv ip t0 ts (rmInsert m ip ⟨some t0, 1⟩) 1 (rmInsert_self m ip _)
      (by norm_num) (fun u hu => (hin u hu).2)]
    rw [List.range_succ_eq_map, List.map_cons, List.map_map]
    refine congrArg₂ List.cons ?_ ?_
    · refine (decide_eq_true ?_).symm
      norm_num
    · refine List.map_congr_left fun i _ => ?_
      simp only [Function.comp]
      refine decide_eq_decide.mpr ?_
      push_cast
      constructor <;> intro <;> omega
  · intro pass ast now body ftk hra
    unfold handleAuth
    rw [if_neg (by simp : ¬("POST" ≠ "POST"))]
    simp only [hra, Bool.false_eq_true, not_false_eq_true, if_true]
    have : authRateWindow / nsSecond = 10 := by norm_num [authRateWindow, nsSecond]
    rw [this]
  · intro m' ws c now hm hge
    unfold authRateAllowedLocked windowExpired
    simp only [hm]
    have hd : decide (now - ws ≥ authRateWindow) = true := decide_eq_true hge
    simp only [hd, if_true]
    norm_num [authRateMaxRequestsPerWindow]

/-- Witness for C6: seven rapid requests from one fresh IP — the first
five are allowed, the sixth and seventh are refused. -/
theorem auth_rate_limit_window_witness :
    (authTraceFrom rmEmpty "10.0.0.9"
        [0, nsSecond, 2 * nsSecond, 3 * nsSecond, 4 * nsSecond,
          5 * nsSecond, 6 * nsSecond]).1
      = [true, true, true, true, true, false, false] := by
  have h := (auth_rate_limit_window rmEmpty "10.0.0.9" 0
    [nsSecond, 2 * nsSecond, 3 * nsSecond, 4 * nsSecond, 5 * nsSecond, 6 * nsSecond]
    rfl
    (by
      intro t ht
      fin_cases ht <;> constructor <;> norm_num [authRateWindow, nsSecond])).1
  rw [h]
  rfl

/-! ### Filesystem model

The shared tree is a finite directory tree.  Path resolution follows the
kernel's lexical rules for absolute paths (`.` and empty components are
skipped, `..` pops, `/..` stays at `/`), which is exactly the
`cleanStep true` stack.  Symbolic links are modelled as dangling links:
`os.Lstat` sees them, `os.Stat` fails on them — no claim depends on
following a link's target.  Proper ancestors of the share root exist as
directories (the root is an existing directory's absolute path); their
other contents are not modelled.  Directory entries are stored in the
sorted order `filepath.WalkDir` visits. -/

mutual
inductive FNode where
  | file (size : Int) (modTime : Int)
  | symlink
  | dir (entries : FEntries)
deriving DecidableEq, Repr

inductive FEntries where
  | nil
  | cons (name : String) (node : FNode) (rest : FEntries)
deriving DecidableEq, Repr
end

def FEntries.find : FEntries → List Char → Option FNode
  | .nil, _ => none
  | .cons n node rest, c => if n.data = c then some node else rest.find c

def lookupNode : FNode → List (List Char) → Option FNode
  | node, [] => some node
  | .dir es, c :: rest =>
    match es.find c with
    | some n => lookupNode n rest
    | none => none
  | .file _ _, _ :: _ => none
  | .symlink, _ :: _ => none

/-- Kernel-style resolution of an absolute path into its component stack. -/
def processAbs (cs : List (List Char)) : List (List Char) :=
  cs.foldl (cleanStep true) []

/-- Resolve a path string; only absolute paths resolve (every path the
handlers hand to the OS is absolute, because the shared root is). -/
def resolvePath (p : String) : Option (List (List Char)) :=
  match p.data with
  | '/' :: _ => some (processAbs (splitSlashCs p.data))
  | _ => none

structure FileSys where
  rootPath : String
  root : FEntries
deriving DecidableEq, Repr

def rootComps (fs : FileSys) : List (List Char) :=
  processAbs (splitSlashCs fs.rootPath.data)

/-- Stat by resolved components: inside the root via the tree, proper
ancestors of the root are directories, everything else is absent. -/
def statComps (fs : FileSys) (pc : List (List Char)) : Option FNode :=
  if rootComps fs <+: pc then lookupNode (.dir fs.root) (pc.drop (rootComps fs).length)
  else if pc <+: rootComps fs then some (.dir .nil)
  else none

/-- `os.Lstat`. -/
def osLstat (fs : FileSys) (p : String) : Option FNode :=
  match resolvePath p with
  | some pc => statComps fs pc
  | none => none

/-- `os.Stat` (follows links; links are modelled as dangling). -/
def osStat (fs : FileSys) (p : String) : Option FNode :=
  match osLstat fs p with
  | some .symlink => none
  | r => r

def FNode.isDir : FNode → Bool
  | .dir _ => true
  | _ => false

/-- Remove the entry with the given name (the effect of `os.Remove` /
`os.RemoveAll` on the parent directory). -/
def FEntries.removeName : FEntries → List Char → FEntries
  | .nil, _ => .nil
  | .cons n node rest, c =>
    if n.data = c then rest else .cons n node (rest.removeName c)

mutual
def removeRelEntries : FEntries → List Char → List (List Char) → FEntries
  | .nil, _, _ => .nil
  | .cons n node r, c, rest =>
    if n.data = c then
      match rest with
      | [] => r
      | _ => .cons n (removeRelNode node rest) r
    else .cons n node (removeRelEntries r c rest)

def removeRelNode : FNode → List (List Char) → FNode
  | .dir es, c :: rest => .dir (removeRelEntries es c rest)
  | node, _ => node
end

/-- `os.Remove` / `os.RemoveAll` of a resolved path inside the root
(the handlers stat first, so only existing entries are removed; I/O
failure modes such as permissions are outside the model). -/
def fsRemovePath (fs : FileSys) (p : String) : FileSys :=
  match resolvePath p with
  | some pc =>
    if rootComps fs <+: pc then
      match pc.drop (rootComps fs).length with
      | [] => fs
      | c :: rest => { fs with root := removeRelEntries fs.root c rest }
    else fs
  | none => fs

/-! ### `POST /api/delete` (share_server.go:1630-1735) -/

/-- `pathsRequest` (share_server.go:1086-1089). -/
structure pathsRequest where
  paths : List String
  ignore : List String
deriving Repr

/-- The trim / drop-empty / de-duplicate loop both `handleDelete` and
`handleDownloadZip` run over `req.Paths` (share_server.go:1189-1201,
1658-1670). -/
def dedupPaths (ps : List String) : List String :=
  ps.foldl (fun acc p =>
    let q := goTrimSpace p
    if q = "" then acc
    else if acc.contains q then acc
    else acc ++ [q]) []

structure DeleteResponse where
  status : Nat
  success : Bool := false
  deleted : Nat := 0
  requested : Nat := 0
  errors : List (String × String) := []
deriving DecidableEq, Repr

/-- The per-path loop of `handleDelete` (share_server.go:1680-1724), on
linux: the `moveToTrash` branch is Windows-only dead code, directories go
through `os.RemoveAll` and files through `os.Remove`, both modelled by
`fsRemovePath`. -/
def deleteLoop (root : String) :
    List String → FileSys → Nat → List (String × String) →
      FileSys × Nat × List (String × String)
  | [], fs, deleted, errs => (fs, deleted, errs)
  | rel :: rest, fs, deleted, errs =>
    let sj := safeJoin root rel
    if sj.2 = false then deleteLoop root rest fs deleted (errs ++ [(rel, "无权限")])
    else
      let full := sj.1
      if pathClean full = pathClean root then
        deleteLoop root rest fs deleted (errs ++ [(rel, "禁止删除根目录")])
      else
        match osStat fs full with
        | none => deleteLoop root rest fs deleted (errs ++ [(rel, "不存在")])
        | some _ => deleteLoop root rest (fsRemovePath fs full) (deleted + 1) errs

/-- `handleDelete` (share_server.go:1630-1735) after its
`requireAuth` / `requirePermission("delete")` gates (modelled separately
by `requireAuth`); `body = none` models a JSON decode failure. -/
def handleDelete (fs : FileSys) (method : String) (body : Option pathsRequest) :
    DeleteResponse × FileSys :=
  if method ≠ "POST" then ({ status := 405 }, fs)
  else if fs.rootPath = "" then ({ status := 400 }, fs)
  else
    match body with
    | none => ({ status := 400 }, fs)
    | some req =>
      let paths := dedupPaths req.paths
      if paths = [] then ({ status := 400 }, fs)
      else if paths.length > 500 then ({ status := 400 }, fs)
      else
        let r := deleteLoop fs.rootPath paths fs 0 []
        ({ status := 200, success := true, deleted := r.2.1,
           requested := paths.length, errors := r.2.2 }, r.1)

theorem deleteLoop_count (root : String) :
    ∀ (ps : List String) (fs : FileSys) (d : Nat) (errs : List (String × String)),
      (deleteLoop root ps fs d errs).2.1 + (deleteLoop root ps fs d errs).2.2.length
        = d + errs.length + ps.length := by
  intro ps
  induction ps with
  | nil => intro fs d errs; simp [deleteLoop]
  | cons rel rest ih =>
    intro fs d errs
    simp only [deleteLoop]
    by_cases h1 : (safeJoin root rel).2 = false
    · simp only [if_pos h1]; rw [ih]; simp; omega
    · simp only [if_neg h1]
      by_cases h2 : pathClean (safeJoin root rel).1 = pathClean root
      · simp only [if_pos h2]; rw [ih]; simp; omega
      · simp only [if_neg h2]
        cases hstat : osStat fs (safeJoin root rel).1
        · simp only [hstat]; rw [ih]; simp; omega
        · simp only [hstat]; rw [ih]; simp; omega

/-- Reduction of `handleDelete` for a well-formed batch. -/
theorem handleDelete_red (fs : FileSys) (req : pathsRequest)
    (hroot : fs.rootPath ≠ "")
    (hne : dedupPaths req.paths ≠ [])
    (hcap : (dedupPaths req.paths).length ≤ 500) :
    handleDelete fs "POST" (some req)
      = ({ status := 200, success := true,
           deleted := (deleteLoop fs.rootPath (dedupPaths req.paths) fs 0 []).2.1,
           requested := (dedupPaths req.paths).length,
           errors := (deleteLoop fs.rootPath (dedupPaths req.paths) fs 0 []).2.2 },
         (deleteLoop fs.rootPath (dedupPaths req.paths) fs 0 []).1) := by
  unfold handleDelete
  rw [if_neg (by simp : ¬("POST" ≠ "POST")), if_neg hroot]
  simp only [if_neg hne, if_neg (by omega : ¬(dedupPaths req.paths).length > 500)]

/-- C8: a deduplicated, non-empty delete batch within the 500-path cap
always gets HTTP 200 with `success = true`, `requested` equal to the
number of deduplicated paths, and every path accounted for exactly once:
`deleted` successes plus one error entry per failed path; a per-path
failure never aborts the rest of the batch. -/
theorem delete_batch_partial_failure (fs : FileSys) (req : pathsRequest)
    (hroot : fs.rootPath ≠ "")
    (hne : dedupPaths req.paths ≠ [])
    (hcap : (dedupPaths req.paths).length ≤ 500) :
    ((handleDelete fs "POST" (some req)).1.status = 200) ∧
    ((handleDelete fs "POST" (some req)).1.success = true) ∧
    ((handleDelete fs "POST" (some req)).1.requested = (dedupPaths req.paths).length) ∧
    ((handleDelete fs "POST" (some req)).1.deleted
        + (handleDelete fs "POST" (some req)).1.errors.length
      = (dedupPaths req.paths).length) := by
  rw [handleDelete_red fs req hroot hne hcap]
  refine ⟨rfl, rfl, rfl, ?_⟩
  have h := deleteLoop_count fs.rootPath (dedupPaths req.paths) fs 0 []
  simpa using h

/-- Witness for C8: deleting `{a.txt, missing.txt}` from a root holding
only `a.txt` reports `deleted = 1, requested = 2` and one error entry,
with status 200. -/
theorem delete_batch_partial_failure_witness :
    ((handleDelete ⟨"/share", .cons "a.txt" (.file 3 7) .nil⟩ "POST"
        (some ⟨["a.txt", "missing.txt"], []⟩)).1.status = 200) ∧
    ((handleDelete ⟨"/share", .cons "a.txt" (.file 3 7) .nil⟩ "POST"
        (some ⟨["a.txt", "missing.txt"], []⟩)).1.deleted
      + (handleDelete ⟨"/share", .cons "a.txt" (.file 3 7) .nil⟩ "POST"
          (some ⟨["a.txt", "missing.txt"], []⟩)).1.errors.length = 2) := by
  refine ⟨(delete_batch_partial_failure ⟨"/share", .cons "a.txt" (.file 3 7) .nil⟩
    ⟨["a.txt", "missing.txt"], []⟩ (by decide) (by decide) (by decide)).1, ?_⟩
  have h := (delete_batch_partial_failure ⟨"/share", .cons "a.txt" (.file 3 7) .nil⟩
    ⟨["a.txt", "missing.txt"], []⟩ (by decide) (by decide) (by decide)).2.2.2
  simpa using h

/-- C3 counterexample: a delete request selecting `.` — which resolves to
the shared root — is answered with HTTP 200 (a per-path error entry in a
partial-failure report), not the HTTP 400 the claim asserts; the root is
not deleted. -/
theorem delete_root_status_200_not_400 :
    ((handleDelete ⟨"/share", .cons "a.txt" (.file 3 7) .nil⟩ "POST"
        (some ⟨["."], []⟩)).1.status = 200) ∧
    ¬((handleDelete ⟨"/share", .cons "a.txt" (.file 3 7) .nil⟩ "POST"
        (some ⟨["."], []⟩)).1.status = 400) ∧
    ((handleDelete ⟨"/share", .cons "a.txt" (.file 3 7) .nil⟩ "POST"
        (some ⟨["."], []⟩)).2 = ⟨"/share", .cons "a.txt" (.file 3 7) .nil⟩) ∧
    ((handleDelete ⟨"/share", .cons "a.txt" (.file 3 7) .nil⟩ "POST"
        (some ⟨["."], []⟩)).1.errors = [(".", "禁止删除根目录")]) := by
  refine ⟨?_, ?_, ?_, ?_⟩ <;> decide

/-! ### Lexical resolution agrees with `filepath.Clean` on absolute paths

These lemmas let the handlers' string-level root comparison
(`filepath.Clean(full) == filepath.Clean(root)`) be transported to the
filesystem model's component-level resolution. -/

def goodComp (x : List Char) : Prop :=
  x ≠ [] ∧ x ≠ ['.'] ∧ x ≠ ['.', '.'] ∧ '/' ∉ x

theorem splitSlashCs_ne_nil (cs : List Char) : splitSlashCs cs ≠ [] := by
  cases cs with
  | nil => simp [splitSlashCs]
  | cons c rest =>
    unfold splitSlashCs
    split <;> simp

theorem splitSlash_cons_slash (zs : List Char) :
    splitSlashCs ('/' :: zs) = [] :: splitSlashCs zs := rfl

theorem splitSlash_cons_other (c : Char) (zs : List Char) (hc : c ≠ '/') :
    splitSlashCs (c :: zs) =
      (c :: (splitSlashCs zs).headD []) :: (splitSlashCs zs).tail := by
  simp only [splitSlashCs]
  rw [if_neg hc]

theorem splitSlash_append (xs ys : List Char) :
    splitSlashCs (xs ++ '/' :: ys) = splitSlashCs xs ++ splitSlashCs ys := by
  induction xs with
  | nil => simp [splitSlashCs]
  | cons c xs ih =>
    by_cases hc : c = '/'
    · subst hc
      show splitSlashCs ('/' :: (xs ++ '/' :: ys)) = _
      rw [splitSlash_cons_slash, splitSlash_cons_slash, ih]
      rfl
    · obtain ⟨a, t, ht⟩ : ∃ a t, splitSlashCs xs = a :: t := by
        cases h : splitSlashCs xs with
        | nil => exact absurd h (splitSlashCs_ne_nil xs)
        | cons a t => exact ⟨a, t, rfl⟩
      show splitSlashCs (c :: (xs ++ '/' :: ys)) = _
      rw [splitSlash_cons_other c _ hc, splitSlash_cons_other c _ hc, ih, ht]
      rfl

theorem splitSlash_no_slash (cs : List Char) (h : '/' ∉ cs) :
    splitSlashCs cs = [cs] := by
  induction cs with
  | nil => rfl
  | cons c rest ih =>
    unfold splitSlashCs
    rw [if_neg (by intro hc; exact h (by simp [hc]))]
    rw [ih (by intro hm; exact h (by simp [hm]))]
    rfl

theorem mem_splitSlash_no_slash (cs : List Char) :
    ∀ x ∈ splitSlashCs cs, '/' ∉ x := by
  induction cs with
  | nil => intro x hx; simp [splitSlashCs] at hx; simp [hx]
  | cons c rest ih =>
    intro x hx
    unfold splitSlashCs at hx
    by_cases hc : c = '/'
    · rw [if_pos hc] at hx
      rcases List.mem_cons.1 hx with h1 | h1
      · simp [h1]
      · exact ih x h1
    · rw [if_neg hc] at hx
      obtain ⟨a, t, ht⟩ : ∃ a t, splitSlashCs rest = a :: t := by
        cases h : splitSlashCs rest with
        | nil => exact absurd h (splitSlashCs_ne_nil rest)
        | cons a t => exact ⟨a, t, rfl⟩
      rw [ht] at hx
      simp only [List.headD, List.tail] at hx
      rcases List.mem_cons.1 hx with h1 | h1
      · subst h1
        intro hm
        rcases List.mem_cons.1 hm with h2 | h2
        · exact hc h2.symm
        · exact ih a (by rw [ht]; simp) h2
      · exact ih x (by rw [ht]; simp [h1])

theorem cleanStackTrue_good (cs : List (List Char)) :
    ∀ st : List (List Char), (∀ x ∈ st, goodComp x) → (∀ x ∈ cs, '/' ∉ x) →
      ∀ x ∈ cs.foldl (cleanStep true) st, goodComp x := by
  induction cs with
  | nil => intro st hst _; simpa using hst
  | cons c cs ih =>
    intro st hst hcs
    rw [List.foldl_cons]
    apply ih
    · intro x hx
      unfold cleanStep at hx
      split at hx
      · exact hst x hx
      · split at hx
        · -- the `..` component
          split at hx
          · -- a last element exists
            rename_i t hlast
            split at hx
            · -- that element is `..`: impossible, stack elements are good
              rename_i ht
              exact absurd ht (hst t (List.mem_of_mem_getLast? (by rw [hlast]; rfl))).2.2.1
            · exact hst x (List.dropLast_subset _ hx)
          · -- empty stack, rooted: the `..` is dropped
            simp only [if_pos rfl] at hx
            exact hst x hx
        · -- an ordinary component is pushed
          rcases List.mem_append.1 hx with h1 | h1
          · exact hst x h1
          · simp only [List.mem_singleton] at h1
            subst h1
            rename_i hne1 hne2
            refine ⟨?_, ?_, hne2, hcs x (by simp)⟩
            · intro hc; exact hne1 (by simp [hc])
            · intro hc; exact hne1 (by simp [hc])
    · intro x hx
      exact hcs x (by simp [hx])

theorem cleanStackTrue_app (comps : List (List Char)) :
    ∀ st : List (List Char), (∀ x ∈ comps, goodComp x) →
      comps.foldl (cleanStep true) st = st ++ comps := by
  induction comps with
  | nil => intro st _; simp
  | cons c comps ih =>
    intro st hg
    rw [List.foldl_cons]
    have hc := hg c (by simp)
    have hstep : cleanStep true st c = st ++ [c] := by
      unfold cleanStep
      rw [if_neg, if_neg hc.2.2.1]
      simp only [Bool.or_eq_true, decide_eq_true_eq, not_or]
      exact ⟨hc.1, hc.2.1⟩
    rw [hstep, ih (st ++ [c]) (fun x hx => hg x (by simp [hx]))]
    simp

theorem splitSlash_joinComps (st : List (List Char)) (hst : st ≠ [])
    (h : ∀ x ∈ st, '/' ∉ x) :
    splitSlashCs (joinComps st) = st := by
  induction st with
  | nil => exact absurd rfl hst
  | cons x rest ih =>
    cases rest with
    | nil =>
      show splitSlashCs (joinComps [x]) = [x]
      rw [show joinComps [x] = x from rfl]
      exact splitSlash_no_slash x (h x (by simp))
    | cons y r =>
      show splitSlashCs (x ++ '/' :: joinComps (y :: r)) = _
      rw [splitSlash_append, splitSlash_no_slash x (h x (by simp)),
        ih (by simp) (fun z hz => h z (by simp [hz]))]
      rfl

theorem resolvePath_clean_rooted (p : String) (t : List Char) (hp : p.data = '/' :: t) :
    resolvePath p = some (cleanStack true (splitSlashCs p.data)) ∧
    resolvePath (pathClean p) = some (cleanStack true (splitSlashCs p.data)) := by
  constructor
  · unfold resolvePath
    rw [hp]
    rfl
  · have hgood : ∀ x ∈ cleanStack true (splitSlashCs p.data), goodComp x :=
      cleanStackTrue_good (splitSlashCs p.data) [] (by simp)
        (mem_splitSlash_no_slash p.data)
    rw [pathClean_data_cons '/' t p hp]
    simp only [beq_self_eq_true, if_true]
    rw [← hp]
    by_cases hnil : cleanStack true (splitSlashCs p.data) = []
    · rw [if_pos hnil, hnil]
      rfl
    · rw [if_neg hnil]
      show some (processAbs (splitSlashCs
        ('/' :: joinComps (cleanStack true (splitSlashCs p.data))))) = _
      rw [splitSlash_cons_slash,
        splitSlash_joinComps _ hnil (fun x hx => (hgood x hx).2.2.2)]
      unfold processAbs
      rw [List.foldl_cons]
      rw [show cleanStep true [] [] = [] from rfl]
      rw [cleanStackTrue_app _ [] hgood]
      rw [List.nil_append]

theorem resolvePath_eq_of_clean_eq (p q : String) (tp tq : List Char)
    (hp : p.data = '/' :: tp) (hq : q.data = '/' :: tq)
    (h : pathClean p = pathClean q) : resolvePath p = resolvePath q := by
  have h1 := resolvePath_clean_rooted p tp hp
  have h2 := resolvePath_clean_rooted q tq hq
  rw [h1.1, ← h1.2, h, h2.2, ← h2.1]

/-- A path whose cleaned form equals the cleaned (already-clean, rooted)
root path stats to the share root directory. -/
theorem osStat_of_clean_eq_root (fs : FileSys) (full : String) (tf tr : List Char)
    (hfull : full.data = '/' :: tf) (hrootd : fs.rootPath.data = '/' :: tr)
    (hclean : pathClean full = pathClean fs.rootPath) :
    osStat fs full = some (.dir fs.root) := by
  have hres : resolvePath full = resolvePath fs.rootPath :=
    resolvePath_eq_of_clean_eq full fs.rootPath tf tr hfull hrootd hclean
  have hroot : resolvePath fs.rootPath = some (rootComps fs) := by
    unfold resolvePath rootComps
    rw [hrootd]
    rfl
  have hl : osLstat fs full = statComps fs (rootComps fs) := by
    unfold osLstat
    rw [hres, hroot]
  have hs : statComps fs (rootComps fs) = some (.dir fs.root) := by
    unfold statComps
    rw [if_pos (List.prefix_refl _), List.drop_length]
    rfl
  unfold osStat
  rw [hl, hs]

/-! ### `POST /api/download-zip` (share_server.go:1091-1433) -/

/-- The normalised ignore rules (share_server.go:1121-1141): bare names
and path-prefix rules, deduplicated, with a leading `/` stripped
(`filepath.ToSlash` is the identity on unix). -/
structure IgnoreRules where
  names : List String
  pathPres : List String
deriving Repr

def buildIgnore (igs : List String) : IgnoreRules :=
  (igs.foldl (fun (acc : IgnoreRules × List String) ig0 =>
    let ig := goTrimSpace ig0
    if ig = "" then acc
    else
      let igNorm := goTrimPre ig "/"
      if acc.2.contains igNorm then acc
      else if containsSlash igNorm then
        ({ acc.1 with pathPres := acc.1.pathPres ++ [igNorm] }, acc.2 ++ [igNorm])
      else
        ({ acc.1 with names := acc.1.names ++ [igNorm] }, acc.2 ++ [igNorm]))
    (⟨[], []⟩, [])).1

/-- `isIgnoredName` (share_server.go:1143-1159); on linux the comparison
is exact (`strings.EqualFold` is the Windows branch). -/
def isIgnoredName (names : List String) (name : String) : Bool :=
  if name = "" then false else names.contains name

/-- `isIgnoredZipEntry` (share_server.go:1161-1187). -/
def isIgnoredZipEntry (ir : IgnoreRules) (zipEntry : String) : Bool :=
  if zipEntry = "" then false
  else
    let ze := goTrimPre (pathClean zipEntry) "/"
    let parts := (splitSlashCs ze.data).map (fun c => (⟨c⟩ : String))
    if parts.any (isIgnoredName ir.names) then true
    else
      ir.pathPres.any fun pr =>
        let p := goTrimPre (pathClean pr) "/"
        if p = "" ∨ p = "." then false
        else ze == p || strStartsWith ze (p ++ "/")

/-- A pending zip candidate (share_server.go:1247-1252). -/
structure zipCandidate where
  fullPath : String
  zipEntry : String
  modTime : Int
  size : Int
deriving DecidableEq, Repr

def maxFilesInZip : Nat := 2000

def maxTotalSize : Int := 2 * 1024 * 1024 * 1024

/-- The phase-one accumulator: collected candidates, `filesAdded`,
`totalSize`. -/
abbrev ZipSt : Type := List zipCandidate × Nat × Int

/-- `addCandidate` (share_server.go:1259-1270): enforce the file-count
and total-uncompressed-size ceilings. -/
def addCandidate (st : ZipSt) (c : zipCandidate) : Except String ZipSt :=
  if st.2.1 ≥ maxFilesInZip then .error "打包文件过多，请减少选择"
  else
    let total := st.2.2 + c.size
    if total > maxTotalSize then .error "打包内容过大，请减少选择"
    else .ok (st.1 ++ [c], st.2.1 + 1, total)

/-! The regular files `filepath.WalkDir` visits under a node named
`name` at walk-relative path `rel` (share_server.go:1325-1361):
ignored names prune whole subtrees (`SkipDir`) and single files,
symbolic links are skipped, directories yield no entry themselves. -/
mutual
def walkFilesNode (names : List String) (name rel : String) : FNode → List (String × Int × Int)
  | .file size mt => if isIgnoredName names name then [] else [(rel, size, mt)]
  | .symlink => []
  | .dir es => if isIgnoredName names name then [] else walkFilesEntries names rel es

def walkFilesEntries (names : List String) (rel : String) : FEntries → List (String × Int × Int)
  | .nil => []
  | .cons n node rest =>
    walkFilesNode names n (if rel = "" then n else rel ++ "/" ++ n) node
      ++ walkFilesEntries names rel rest
end

/-- The per-file body of the walk callback: compute the zip entry name,
apply the entry-level ignore rules, and feed `addCandidate`. -/
def addWalkFiles (ir : IgnoreRules) (full cleanRel : String) :
    List (String × Int × Int) → ZipSt → Except String ZipSt
  | [], st => .ok st
  | (relIn, size, mt) :: rest, st =>
    let zipEntry := pathJoin cleanRel relIn
    if isIgnoredZipEntry ir zipEntry then addWalkFiles ir full cleanRel rest st
    else
      match addCandidate st ⟨full ++ "/" ++ relIn, zipEntry, mt, size⟩ with
      | .error m => .error m
      | .ok st' => addWalkFiles ir full cleanRel rest st'

/-- Phase-one validation of one selected path (share_server.go:1280-1370):
sandbox, root protection, existence, symlink rejection, ignore
filtering, then ceiling-checked collection (for a directory, of every
file its walk visits).  In the model a node is a directory, a symlink or
a regular file, so the `IsRegular` 400 branch is unreachable, and the
pure tree walk cannot fail with the 500 I/O branch. -/
def collectOne (fs : FileSys) (root : String) (ir : IgnoreRules) (st : ZipSt)
    (rel : String) : Except (Nat × String) ZipSt :=
  let sj := safeJoin root rel
  if sj.2 = false then .error (403, "包含无权限访问的路径")
  else
    let full := sj.1
    if pathClean full = pathClean root then .error (400, "禁止下载根目录")
    else
      match osLstat fs full with
      | none => .error (404, "包含不存在的路径")
      | some .symlink => .error (400, "不支持打包符号链接")
      | some (.file size mt) =>
        let cleanRel := goTrimPre (pathClean rel) "/"
        if isIgnoredZipEntry ir cleanRel then .ok st
        else
          match addCandidate st ⟨full, cleanRel, mt, size⟩ with
          | .error m => .error (400, m)
          | .ok st' => .ok st'
      | some (.dir es) =>
        let cleanRel := goTrimPre (pathClean rel) "/"
        if isIgnoredZipEntry ir cleanRel then .ok st
        else
          match addWalkFiles ir full cleanRel
              (walkFilesNode ir.names (pathBase full) "" (.dir es)) st with
          | .error m => .error (400, m)
          | .ok st' => .ok st'

/-- Phase one over the whole deduplicated selection: the first failing
path aborts the build before anything is streamed. -/
def collectLoop (fs : FileSys) (root : String) (ir : IgnoreRules) :
    List String → ZipSt → Except (Nat × String) ZipSt
  | [], st => .ok st
  | rel :: rest, st =>
    match collectOne fs root ir st rel with
    | .error e => .error e
    | .ok st' => collectLoop fs root ir rest st'

def ulookup : List (String × Nat) → String → Nat
  | [], _ => 0
  | (k, v) :: r, s => if k = s then v else ulookup r s

/-- `makeUnique` (share_server.go:1383-1405): de-duplicate archive entry
names with a numeric suffix before the extension. -/
def makeUnique (used : List (String × Nat)) (name0 : String) : String × List (String × Nat) :=
  let name1 := pathClean (goTrimPre name0 "/")
  let name := if name1 = "." ∨ name1 = "" then "file" else name1
  let c0 := ulookup used name
  if c0 = 0 then (name, (name, 1) :: used)
  else
    let used' := (name, c0 + 1) :: used
    let dir := pathDir name
    let base := pathBase name
    let ext := pathExt base
    let stem := goTrimSuf base ext
    let alt := stem ++ " (" ++ toString c0 ++ ")" ++ ext
    if dir ≠ "." then (pathJoin dir alt, used') else (alt, used')

/-- Phase two (share_server.go:1377-1432): the streamed archive as the
list of `(entryName, sourcePath, modTime)` headers written in order
(the zip byte encoding itself is outside the model). -/
def zipEntriesRender : List zipCandidate → List (String × Nat) → List (String × String × Int)
  | [], _ => []
  | c :: rest, used =>
    let r := makeUnique used c.zipEntry
    (r.1, c.fullPath, c.modTime) :: zipEntriesRender rest r.2

/-- The result of `handleDownloadZip`: a JSON error (written before any
zip bytes), a raw single-file stream, or a committed zip stream. -/
inductive ZipResult where
  | err (status : Nat) (msg : String)
  | rawFile (fullPath : String) (filename : String)
  | zipStream (zipName : String) (entries : List (String × String × Int))
deriving DecidableEq, Repr

/-- The single-path fast path (share_server.go:1211-1240): one selected
path that stats to a non-root, non-directory file is streamed raw with a
`Content-Disposition` filename of its base name. -/
def zipSingleFast (fs : FileSys) (root : String) (paths : List String) : Option ZipResult :=
  match paths with
  | [p] =>
    let sj := safeJoin root p
    if sj.2 = false then some (.err 403 "无权限访问此路径")
    else
      match osStat fs sj.1 with
      | none => some (.err 404 "路径不存在")
      | some node =>
        if pathClean sj.1 = pathClean root then some (.err 400 "禁止下载根目录")
        else if node.isDir then none
        else some (.rawFile sj.1 (pathBase sj.1))
  | _ => none

/-- `zipName` (share_server.go:1272-1278); `nowStamp` stands for the
formatted `time.Now()` timestamp. -/
def zipNameOf (paths : List String) (nowStamp : String) : String :=
  match paths with
  | [p] =>
    let base := pathBase (pathClean p)
    if base ≠ "." ∧ base ≠ "" then base ++ ".zip" else "shared-" ++ nowStamp ++ ".zip"
  | _ => "shared-" ++ nowStamp ++ ".zip"

/-- `handleDownloadZip` (share_server.go:1091-1433) after its
`requireAuth` / `requirePermission("read")` gates (modelled separately
by `requireAuth`); `body = none` models a JSON decode failure. -/
def handleDownloadZip (fs : FileSys) (method : String) (body : Option pathsRequest)
    (nowStamp : String) : ZipResult :=
  if method ≠ "POST" then .err 405 "仅支持 POST"
  else if fs.rootPath = "" then .err 400 "服务未启动"
  else
    match body with
    | none => .err 400 "请求体解析失败"
    | some req =>
      let ir := buildIgnore req.ignore
      let paths := dedupPaths req.paths
      if paths = [] then .err 400 "未选择任何内容"
      else if paths.length > 200 then .err 400 "一次最多选择 200 个路径"
      else
        match zipSingleFast fs fs.rootPath paths with
        | some r => r
        | none =>
          match collectLoop fs fs.rootPath ir paths ([], 0, 0) with
          | .error e => .err e.1 e.2
          | .ok st =>
            if st.1 = [] then .err 400 "打包内容为空（已全部被忽略）"
            else .zipStream (zipNameOf paths nowStamp) (zipEntriesRender st.1 [])

/-- C5: a `download-zip` request whose deduplicated selection is exactly
one path that resolves inside the root to an existing regular file (not
the root, not a directory) is answered with the raw file bytes and a
`Content-Disposition` attachment carrying the file's base name — not a
zip container.  (This branch of the code does not even consult the
ignore rules, so the claim's "no ignore rule matches" condition is not
needed.) -/
theorem zip_single_file_bypass (fs : FileSys) (req : pathsRequest)
    (nowStamp p full : String) (size mt : Int)
    (hroot : fs.rootPath ≠ "")
    (hpaths : dedupPaths req.paths = [p])
    (hsj : safeJoin fs.rootPath p = (full, true))
    (hstat : osStat fs full = some (.file size mt))
    (hnroot : ¬pathClean full = pathClean fs.rootPath) :
    handleDownloadZip fs "POST" (some req) nowStamp = .rawFile full (pathBase full) := by
  have hfast : zipSingleFast fs fs.rootPath [p] = some (.rawFile full (pathBase full)) := by
    unfold zipSingleFast
    simp only [hsj]
    rw [if_neg (by simp : ¬(true = false))]
    simp only [hstat]
    rw [if_neg hnroot]
    rfl
  unfold handleDownloadZip
  rw [if_neg (by simp : ¬("POST" ≠ "POST")), if_neg hroot]
  simp only [hpaths]
  rw [if_neg (by simp : ¬(([p] : List String) = [])),
    if_neg (by simp : ¬(([p] : List String).length > 200))]
  simp only [hfast]

/-- Witness for C5: a one-file selection streams the raw file. -/
theorem zip_single_file_bypass_witness :
    handleDownloadZip ⟨"/share", .cons "a.txt" (.file 3 5) .nil⟩ "POST"
        (some ⟨["a.txt"], []⟩) "20240101-000000"
      = .rawFile "/share/a.txt" "a.txt" := by
  have h := zip_single_file_bypass ⟨"/share", .cons "a.txt" (.file 3 5) .nil⟩
    ⟨["a.txt"], []⟩ "20240101-000000" "a.txt" "/share/a.txt" 3 5
    (by decide) (by decide) (by decide) (by decide) (by decide)
  rw [h]
  rfl

/-! ### C4: two-phase validate-then-stream -/

theorem collectOne_err_status (fs : FileSys) (root : String) (ir : IgnoreRules)
    (st : ZipSt) (rel : String) (e : Nat × String)
    (h : collectOne fs root ir st rel = .error e) :
    e.1 = 400 ∨ e.1 = 403 ∨ e.1 = 404 := by
  unfold collectOne at h
  by_cases h1 : (safeJoin root rel).2 = false
  · simp only [if_pos h1, Except.error.injEq] at h
    subst h
    simp
  · simp only [if_neg h1] at h
    by_cases h2 : pathClean (safeJoin root rel).1 = pathClean root
    · simp only [if_pos h2, Except.error.injEq] at h
      subst h
      simp
    · simp only [if_neg h2] at h
      cases hstat : osLstat fs (safeJoin root rel).1 with
      | none =>
        simp only [hstat, Except.error.injEq] at h
        subst h
        simp
      | some node =>
        simp only [hstat] at h
        cases node with
        | symlink =>
          simp only [Except.error.injEq] at h
          subst h
          simp
        | file size mt =>
          by_cases h3 : isIgnoredZipEntry ir (goTrimPre (pathClean rel) "/") = true
          · simp only [h3, if_true] at h
            exact absurd h (by simp)
          · simp only [if_neg h3] at h
            cases hadd : addCandidate st ⟨(safeJoin root rel).1,
                goTrimPre (pathClean rel) "/", mt, size⟩ with
            | error m =>
              simp only [hadd, Except.error.injEq] at h
              subst h
              simp
            | ok st' =>
              simp only [hadd] at h
              exact absurd h (by simp)
        | dir es =>
          by_cases h3 : isIgnoredZipEntry ir (goTrimPre (pathClean rel) "/") = true
          · simp only [h3, if_true] at h
            exact absurd h (by simp)
          · simp only [if_neg h3] at h
            cases hadd : addWalkFiles ir (safeJoin root rel).1
                (goTrimPre (pathClean rel) "/")
                (walkFilesNode ir.names (pathBase (safeJoin root rel).1) "" (.dir es)) st with
            | error m =>
              simp only [hadd, Except.error.injEq] at h
              subst h
              simp
            | ok st' =>
              simp only [hadd] at h
              exact absurd h (by simp)

theorem collectLoop_err_status (fs : FileSys) (root : String) (ir : IgnoreRules) :
    ∀ (ps : List String) (st : ZipSt) (e : Nat × String),
      collectLoop fs root ir ps st = .error e →
      e.1 = 400 ∨ e.1 = 403 ∨ e.1 = 404 := by
  intro ps
  induction ps with
  | nil => intro st e h; simp [collectLoop] at h
  | cons rel rest ih =>
    intro st e h
    simp only [collectLoop] at h
    cases hone : collectOne fs root ir st rel with
    | error e' =>
      simp only [hone, Except.error.injEq] at h
      subst h
      exact collectOne_err_status fs root ir st rel _ hone
    | ok st' =>
      simp only [hone] at h
      exact ih st' e h

/-- Reduction of `handleDownloadZip` to its two phases once the request
reaches zipping. -/
theorem handleDownloadZip_phase (fs : FileSys) (req : pathsRequest) (nowStamp : String)
    (hroot : fs.rootPath ≠ "") (hne : dedupPaths req.paths ≠ [])
    (hcap : (dedupPaths req.paths).length ≤ 200)
    (hfast : zipSingleFast fs fs.rootPath (dedupPaths req.paths) = none) :
    handleDownloadZip fs "POST" (some req) nowStamp =
      (match collectLoop fs fs.rootPath (buildIgnore req.ignore)
          (dedupPaths req.paths) ([], 0, 0) with
       | .error e => .err e.1 e.2
       | .ok st =>
         if st.1 = [] then .err 400 "打包内容为空（已全部被忽略）"
         else .zipStream (zipNameOf (dedupPaths req.paths) nowStamp)
           (zipEntriesRender st.1 [])) := by
  unfold handleDownloadZip
  rw [if_neg (by simp : ¬("POST" ≠ "POST")), if_neg hroot]
  simp only [if_neg hne, if_neg (by omega : ¬(dedupPaths req.paths).length > 200), hfast]

/-- C4: for a request that goes to zipping, the first phase validates
every candidate — sandbox, root, existence, symlink, ignore rules, and
the cumulative count and size ceilings — before anything is streamed:
any phase-one failure yields a JSON error with status 400, 403 or 404,
and a zip stream exists exactly when phase one succeeded with a
non-empty candidate list. -/
theorem zip_two_phase (fs : FileSys) (req : pathsRequest) (nowStamp : String)
    (hroot : fs.rootPath ≠ "") (hne : dedupPaths req.paths ≠ [])
    (hcap : (dedupPaths req.paths).length ≤ 200)
    (hfast : zipSingleFast fs fs.rootPath (dedupPaths req.paths) = none) :
    (∀ e, collectLoop fs fs.rootPath (buildIgnore req.ignore)
        (dedupPaths req.paths) ([], 0, 0) = .error e →
      handleDownloadZip fs "POST" (some req) nowStamp = .err e.1 e.2 ∧
        (e.1 = 400 ∨ e.1 = 403 ∨ e.1 = 404)) ∧
    (∀ st, collectLoop fs fs.rootPath (buildIgnore req.ignore)
        (dedupPaths req.paths) ([], 0, 0) = .ok st → st.1 ≠ [] →
      handleDownloadZip fs "POST" (some req) nowStamp =
        .zipStream (zipNameOf (dedupPaths req.paths) nowStamp) (zipEntriesRender st.1 [])) ∧
    (∀ st, collectLoop fs fs.rootPath (buildIgnore req.ignore)
        (dedupPaths req.paths) ([], 0, 0) = .ok st → st.1 = [] →
      handleDownloadZip fs "POST" (some req) nowStamp
        = .err 400 "打包内容为空（已全部被忽略）") ∧
    (∀ zn es, handleDownloadZip fs "POST" (some req) nowStamp = .zipStream zn es →
      ∃ st, collectLoop fs fs.rootPath (buildIgnore req.ignore)
          (dedupPaths req.paths) ([], 0, 0) = .ok st ∧ st.1 ≠ [] ∧
        es = zipEntriesRender st.1 []) := by
  have hph := handleDownloadZip_phase fs req nowStamp hroot hne hcap hfast
  refine ⟨?_, ?_, ?_, ?_⟩
  · intro e he
    rw [hph, he]
    exact ⟨rfl, collectLoop_err_status fs fs.rootPath _ _ _ e he⟩
  · intro st hst hne1
    rw [hph, hst]
    simp only [if_neg hne1]
  · intro st hst he1
    rw [hph, hst]
    simp only [if_pos he1]
  · intro zn es h
    rw [hph] at h
    split at h
    · exact absurd h (by simp)
    · rename_i st hcl
      split at h
      · exact absurd h (by simp)
      · rename_i hempty
        refine ⟨st, hcl, hempty, ?_⟩
        injection h with h1 h2
        exact h2.symm

/-- Witness for C4: a two-file selection passes phase one and streams. -/
theorem zip_two_phase_witness :
    handleDownloadZip
        ⟨"/share", .cons "a.txt" (.file 3 5) (.cons "b.txt" (.file 4 6) .nil)⟩
        "POST" (some ⟨["a.txt", "b.txt"], []⟩) "20240101-000000"
      = .zipStream "shared-20240101-000000.zip"
          [("a.txt", "/share/a.txt", 5), ("b.txt", "/share/b.txt", 6)] := by
  have h := (zip_two_phase
    ⟨"/share", .cons "a.txt" (.file 3 5) (.cons "b.txt" (.file 4 6) .nil)⟩
    ⟨["a.txt", "b.txt"], []⟩ "20240101-000000"
    (by decide) (by decide) (by decide) (by decide)).2.1
    ([⟨"/share/a.txt", "a.txt", 5, 3⟩, ⟨"/share/b.txt", "b.txt", 6, 4⟩], 2, 7)
    (by rfl) (by decide)
  rw [h]
  rfl

/-! ### C3: root protection -/

theorem deleteLoop_err_mono (root : String) :
    ∀ (ps : List String) (fs : FileSys) (d : Nat) (errs : List (String × String))
      (x : String × String), x ∈ errs → x ∈ (deleteLoop root ps fs d errs).2.2 := by
  intro ps
  induction ps with
  | nil => intro fs d errs x hx; simpa [deleteLoop] using hx
  | cons rel rest ih =>
    intro fs d errs x hx
    simp only [deleteLoop]
    by_cases h1 : (safeJoin root rel).2 = false
    · simp only [if_pos h1]
      exact ih _ _ _ _ (List.mem_append_left _ hx)
    · simp only [if_neg h1]
      by_cases h2 : pathClean (safeJoin root rel).1 = pathClean root
      · simp only [if_pos h2]
        exact ih _ _ _ _ (List.mem_append_left _ hx)
      · simp only [if_neg h2]
        cases hstat : osStat fs (safeJoin root rel).1 with
        | none =>
          simp only [hstat]
          exact ih _ _ _ _ (List.mem_append_left _ hx)
        | some node =>
          simp only [hstat]
          exact ih _ _ _ _ hx

theorem deleteLoop_root_err (root : String) :
    ∀ (ps : List String) (fs : FileSys) (d : Nat) (errs : List (String × String))
      (rel : String), rel ∈ ps →
      (safeJoin root rel).2 = true →
      pathClean (safeJoin root rel).1 = pathClean root →
      (rel, "禁止删除根目录") ∈ (deleteLoop root ps fs d errs).2.2 := by
  intro ps
  induction ps with
  | nil => intro fs d errs rel hmem; exact absurd hmem (List.not_mem_nil rel)
  | cons rel0 rest ih =>
    intro fs d errs rel hmem hok hclean
    rcases List.mem_cons.1 hmem with h | h
    · subst h
      simp only [deleteLoop, hok]
      rw [if_neg (by simp : ¬(true = false)), if_pos hclean]
      exact deleteLoop_err_mono root rest fs d _ _ (List.mem_append_right _ (by simp))
    · simp only [deleteLoop]
      by_cases h1 : (safeJoin root rel0).2 = false
      · simp only [if_pos h1]
        exact ih _ _ _ rel h hok hclean
      · simp only [if_neg h1]
        by_cases h2 : pathClean (safeJoin root rel0).1 = pathClean root
        · simp only [if_pos h2]
          exact ih _ _ _ rel h hok hclean
        · simp only [if_neg h2]
          cases hstat : osStat fs (safeJoin root rel0).1 with
          | none =>
            simp only [hstat]
            exact ih _ _ _ rel h hok hclean
          | some node =>
            simp only [hstat]
            exact ih _ _ _ rel h hok hclean

theorem collectLoop_err_of_root (fs : FileSys) (root : String) (ir : IgnoreRules) :
    ∀ (ps : List String) (st : ZipSt) (rel : String), rel ∈ ps →
      (safeJoin root rel).2 = true →
      pathClean (safeJoin root rel).1 = pathClean root →
      ∃ e, collectLoop fs root ir ps st = .error e := by
  intro ps
  induction ps with
  | nil => intro st rel hmem; exact absurd hmem (List.not_mem_nil rel)
  | cons rel0 rest ih =>
    intro st rel hmem hok hclean
    rcases List.mem_cons.1 hmem with h | h
    · subst h
      have hone : collectOne fs root ir st rel = .error (400, "禁止下载根目录") := by
        unfold collectOne
        simp only [hok]
        rw [if_neg (by simp : ¬(true = false)), if_pos hclean]
      exact ⟨(400, "禁止下载根目录"), by simp only [collectLoop, hone]⟩
    · cases hone : collectOne fs root ir st rel0 with
      | error e => exact ⟨e, by simp only [collectLoop, hone]⟩
      | ok st' =>
        obtain ⟨e, he⟩ := ih st' rel h hok hclean
        exact ⟨e, by simp only [collectLoop, hone]; exact he⟩

theorem zipSingleFast_none_of_two (fs : FileSys) (root : String)
    (p0 p1 : String) (rest : List String) :
    zipSingleFast fs root (p0 :: p1 :: rest) = none := rfl

/-- C3 (amended): the zip endpoint never acts on a selection containing a
path that resolves to the bare root: the request fails with a JSON error
whose status is 400, 403 or 404 (400 when the root path itself is the
failure reported) and nothing is streamed.  The delete endpoint never
deletes the root, but reports the root path as a per-path error
`禁止删除根目录` inside an HTTP **200** partial-failure response — not the
400 the original claim asserts.  A selection that reduces to the empty
list (for instance the bare `""`) is rejected with 400 by both
endpoints. -/
theorem root_protection_amended (fs : FileSys) (req : pathsRequest)
    (nowStamp rel : String) (tr : List Char)
    (hroot : fs.rootPath ≠ "") (hrootd : fs.rootPath.data = '/' :: tr)
    (hmem : rel ∈ dedupPaths req.paths)
    (hok : (safeJoin fs.rootPath rel).2 = true)
    (hclean : pathClean (safeJoin fs.rootPath rel).1 = pathClean fs.rootPath) :
    (∃ s msg, handleDownloadZip fs "POST" (some req) nowStamp = .err s msg ∧
      (s = 400 ∨ s = 403 ∨ s = 404)) ∧
    ((dedupPaths req.paths).length ≤ 500 →
      (handleDelete fs "POST" (some req)).1.status = 200 ∧
      (rel, "禁止删除根目录") ∈ (handleDelete fs "POST" (some req)).1.errors) ∧
    (∀ req' : pathsRequest, dedupPaths req'.paths = [] →
      (handleDelete fs "POST" (some req')).1.status = 400 ∧
      handleDownloadZip fs "POST" (some req') nowStamp = .err 400 "未选择任何内容") := by
  have hne : dedupPaths req.paths ≠ [] := by
    intro h
    rw [h] at hmem
    exact absurd hmem (List.not_mem_nil rel)
  refine ⟨?_, ?_, ?_⟩
  · -- zip endpoint
    by_cases hlen : (dedupPaths req.paths).length > 200
    · refine ⟨400, "一次最多选择 200 个路径", ?_, Or.inl rfl⟩
      unfold handleDownloadZip
      rw [if_neg (by simp : ¬("POST" ≠ "POST")), if_neg hroot]
      simp only [if_neg hne, if_pos hlen]
    · cases hdp : dedupPaths req.paths with
      | nil => exact absurd hdp hne
      | cons p0 rest =>
        cases rest with
        | nil =>
          have hrel : rel = p0 := by
            rw [hdp] at hmem
            simpa using hmem
          subst hrel
          obtain ⟨tf, hfd⟩ := (strStartsWith_slash_iff _).1
            ((safeJoin_confines fs.rootPath rel hok).2.2
              ((strStartsWith_slash_iff _).2 ⟨tr, hrootd⟩))
          have hstat := osStat_of_clean_eq_root fs (safeJoin fs.rootPath rel).1
            tf tr hfd hrootd hclean
          have hfast : zipSingleFast fs fs.rootPath [rel]
              = some (.err 400 "禁止下载根目录") := by
            unfold zipSingleFast
            simp only [hok]
            rw [if_neg (by simp : ¬(true = false))]
            simp only [hstat]
            rw [if_pos hclean]
          refine ⟨400, "禁止下载根目录", ?_, Or.inl rfl⟩
          unfold handleDownloadZip
          rw [if_neg (by simp : ¬("POST" ≠ "POST")), if_neg hroot]
          simp only [hdp]
          rw [if_neg (by simp : ¬(([rel] : List String) = [])),
            if_neg (by simp : ¬(([rel] : List String).length > 200))]
          simp only [hfast]
        | cons p1 rest2 =>
          have hfast : zipSingleFast fs fs.rootPath (dedupPaths req.paths) = none := by
            rw [hdp]
            exact zipSingleFast_none_of_two fs fs.rootPath p0 p1 rest2
          obtain ⟨e, he⟩ := collectLoop_err_of_root fs fs.rootPath
            (buildIgnore req.ignore) (dedupPaths req.paths) ([], 0, 0) rel hmem hok hclean
          refine ⟨e.1, e.2, ?_, collectLoop_err_status fs fs.rootPath _ _ _ e he⟩
          rw [handleDownloadZip_phase fs req nowStamp hroot hne (by omega) hfast, he]
  · -- delete endpoint: per-path error, batch status 200
    intro hcap
    rw [handleDelete_red fs req hroot hne hcap]
    exact ⟨rfl, deleteLoop_root_err fs.rootPath (dedupPaths req.paths) fs 0 [] rel
      hmem hok hclean⟩
  · -- empty selection: 400 from both endpoints
    intro req' hdp'
    constructor
    · unfold handleDelete
      rw [if_neg (by simp : ¬("POST" ≠ "POST")), if_neg hroot]
      simp only [if_pos hdp']
    · unfold handleDownloadZip
      rw [if_neg (by simp : ¬("POST" ≠ "POST")), if_neg hroot]
      simp only [if_pos hdp']

/-- Witness for the amended C3 at the concrete selection `.` (which
resolves to the root): the zip endpoint answers 400, the delete endpoint
answers 200 with a per-path error. -/
theorem root_protection_amended_witness :
    (∃ s msg, handleDownloadZip ⟨"/share", .cons "a.txt" (.file 3 7) .nil⟩ "POST"
        (some ⟨["."], []⟩) "20240101-000000" = .err s msg ∧
      (s = 400 ∨ s = 403 ∨ s = 404)) ∧
    ((handleDelete ⟨"/share", .cons "a.txt" (.file 3 7) .nil⟩ "POST"
        (some ⟨["."], []⟩)).1.status = 200 ∧
      (".", "禁止删除根目录") ∈ (handleDelete ⟨"/share", .cons "a.txt" (.file 3 7) .nil⟩
        "POST" (some ⟨["."], []⟩)).1.errors) := by
  have h := root_protection_amended ⟨"/share", .cons "a.txt" (.file 3 7) .nil⟩
    ⟨["."], []⟩ "20240101-000000" "." ['s', 'h', 'a', 'r', 'e']
    (by decide) rfl (by decide) (by decide) (by decide)
  exact ⟨h.1, h.2.1 (by decide)⟩

/-! ### Server lifecycle: `ShareServer.Start` (share_server.go:530-648) -/

structure ServerInfo where
  url : String
  port : Nat
  localIP : String
  sharedFolder : String
deriving DecidableEq, Repr

/-- The session fields of `ShareServer` guarded by `mu`
(share_server.go:77-99); `listener` and `server` are identities of the
live `net.Listener` / `http.Server` (`none` = nil). -/
structure ShareServer where
  sharedRoot : String
  localIP : String
  port : Nat
  listener : Option Nat
  server : Option Nat
deriving DecidableEq, Repr

/-- The environment `Start` consults: the OS and collaborators.
`statIsDir p = none` is an `os.Stat` error, `some b` tells whether the
path is a directory; `customPort` is `getCustomPortFromSettings` when it
returned `ok` with no error; `listen` / `availablePort` yield listener
identities; `newServerId` identifies the `http.Server` that
`buildHTTPServer` would construct. -/
structure StartEnv where
  cwd : String
  statIsDir : String → Option Bool
  localIPv4 : Option String
  customPort : Option Nat
  listen : Nat → Option Nat
  availablePort : Option (Nat × Nat)
  newServerId : Nat

/-- `filepath.Abs`. -/
def goAbs (cwd p : String) : String :=
  if strStartsWith p "/" then pathClean p else goJoin cwd p

/-- `ShareServer.Start` (share_server.go:530-648), sequentially: the
second `s.server != nil` re-check under the write lock (lines 602-621)
cannot fire in a sequential run, so the state transition below is the
first-check branch structure.  The returned `Bool` records whether a new
listening socket was opened.  The watcher subsystem and the
`wruntime.EventsEmit` toast are outside the modelled state. -/
def ShareServer.start (env : StartEnv) (s : ShareServer) (folderPath : String) :
    Except String ServerInfo × ShareServer × Bool :=
  let fp := goTrimChar (goTrimSpace folderPath) '"'
  if fp = "" then (.error "共享文件夹路径为空", s, false)
  else
    let absRoot := goAbs env.cwd fp
    match env.statIsDir absRoot with
    | none => (.error "stat error", s, false)
    | some false => (.error "共享路径不是文件夹", s, false)
    | some true =>
      match s.server with
      | some _ =>
        -- already running: update the shared root (and best-effort the IP),
        -- do not rebind the port
        let s' := { s with sharedRoot := absRoot,
                           localIP := (env.localIPv4).getD s.localIP }
        (.ok ⟨"http://" ++ s'.localIP ++ ":" ++ toString s'.port, s'.port,
            s'.localIP, s'.sharedRoot⟩, s', false)
      | none =>
        match env.localIPv4 with
        | none => (.error "no local ipv4", s, false)
        | some ip =>
          let acquired : Option (Nat × Nat) :=
            match env.customPort with
            | some cp =>
              match env.listen cp with
              | some l => some (cp, l)
              | none => env.availablePort
            | none => env.availablePort
          match acquired with
          | none => (.error "no available port", s, false)
          | some pl =>
            let s' : ShareServer :=
              ⟨absRoot, ip, pl.1, some pl.2, some env.newServerId⟩
            (.ok ⟨"http://" ++ ip ++ ":" ++ toString pl.1, pl.1, ip, absRoot⟩,
              s', true)

/-- C9: calling `Start(pathB)` while the server is already running only
swaps the session's shared root (and refreshes the advertised IP): the
bound port, the listening socket and the `http.Server` instance are
unchanged, and no new listening socket is opened. -/
theorem start_while_running_keeps_socket (env : StartEnv) (s : ShareServer)
    (pathB : String) (sid : Nat)
    (hrun : s.server = some sid)
    (hfp : goTrimChar (goTrimSpace pathB) '"' ≠ "")
    (hstat : env.statIsDir (goAbs env.cwd (goTrimChar (goTrimSpace pathB) '"'))
      = some true) :
    ((ShareServer.start env s pathB).2.1.sharedRoot
        = goAbs env.cwd (goTrimChar (goTrimSpace pathB) '"')) ∧
    ((ShareServer.start env s pathB).2.1.port = s.port) ∧
    ((ShareServer.start env s pathB).2.1.listener = s.listener) ∧
    ((ShareServer.start env s pathB).2.1.server = s.server) ∧
    ((ShareServer.start env s pathB).2.2 = false) ∧
    (∃ info, (ShareServer.start env s pathB).1 = .ok info ∧ info.port = s.port) := by
  have hred : ShareServer.start env s pathB
      = (.ok ⟨"http://" ++ ((env.localIPv4).getD s.localIP) ++ ":" ++ toString s.port,
            s.port, (env.localIPv4).getD s.localIP,
            goAbs env.cwd (goTrimChar (goTrimSpace pathB) '"')⟩,
          { s with sharedRoot := goAbs env.cwd (goTrimChar (goTrimSpace pathB) '"'),
                   localIP := (env.localIPv4).getD s.localIP },
          false) := by
    unfold ShareServer.start
    rw [if_neg hfp]
    simp only [hstat, hrun]
  rw [hred]
  exact ⟨rfl, rfl, rfl, rfl, rfl, ⟨_, rfl, rfl⟩⟩

/-- Witness for C9 at a concrete running server. -/
theorem start_while_running_keeps_socket_witness :
    ((ShareServer.start
        ⟨"/", fun _ => some true, some "192.168.1.5", none, fun _ => none, some (9000, 77), 99⟩
        ⟨"/old", "192.168.1.4", 8080, some 42, some 7⟩ "/new").2.1
      = ⟨"/new", "192.168.1.5", 8080, some 42, some 7⟩) ∧
    ((ShareServer.start
        ⟨"/", fun _ => some true, some "192.168.1.5", none, fun _ => none, some (9000, 77), 99⟩
        ⟨"/old", "192.168.1.4", 8080, some 42, some 7⟩ "/new").2.2 = false) := by
  have h := start_while_running_keeps_socket
    ⟨"/", fun _ => some true, some "192.168.1.5", none, fun _ => none, some (9000, 77), 99⟩
    ⟨"/old", "192.168.1.4", 8080, some 42, some 7⟩ "/new" 7
    rfl (by decide) rfl
  exact ⟨by decide, h.2.2.2.2.1⟩

/-! ### `POST /api/upload` (share_server.go:1521-1628) -/

/-- Replace the node stored under an existing name. -/
def FEntries.setEntry : FEntries → List Char → FNode → FEntries
  | .nil, _, _ => .nil
  | .cons n node r, c, new =>
    if n.data = c then .cons n new r else .cons n node (r.setEntry c new)

/-- Append a new entry. -/
def FEntries.addEntry : FEntries → List Char → FNode → FEntries
  | .nil, c, node => .cons ⟨c⟩ node .nil
  | .cons n m r, c, node => .cons n m (r.addEntry c node)

/-- The recursive body of `os.MkdirAll` below the share root: create the
missing directories of the component chain; an existing non-directory on
the chain is an error. -/
def mkdirAllEntries : FEntries → List (List Char) → Option FEntries
  | es, [] => some es
  | es, c :: rest =>
    match es.find c with
    | some (.dir sub) =>
      match mkdirAllEntries sub rest with
      | some sub' => some (es.setEntry c (.dir sub'))
      | none => none
    | some _ => none
    | none =>
      match mkdirAllEntries .nil rest with
      | some sub' => some (es.addEntry c (.dir sub'))
      | none => none

/-- `os.MkdirAll`: proper ancestors of the share root already exist as
directories, so the call is a no-op there. -/
def mkdirAll (fs : FileSys) (p : String) : Option FileSys :=
  match resolvePath p with
  | none => none
  | some pc =>
    if rootComps fs <+: pc then
      match mkdirAllEntries fs.root (pc.drop (rootComps fs).length) with
      | some root' => some { fs with root := root' }
      | none => none
    else if pc <+: rootComps fs then some fs
    else none

/-- The recursive body of `os.Create` below the share root: overwrite an
existing non-directory entry or create a new one; creating at a
directory fails (EISDIR), as does a missing or non-directory parent. -/
def createFileEntries : FEntries → List (List Char) → Int → Int → Option FEntries
  | _, [], _, _ => none
  | es, [c], size, mt =>
    match es.find c with
    | some (.dir _) => none
    | some _ => some (es.setEntry c (.file size mt))
    | none => some (es.addEntry c (.file size mt))
  | es, c :: d :: rest, size, mt =>
    match es.find c with
    | some (.dir sub) =>
      match createFileEntries sub (d :: rest) size mt with
      | some sub' => some (es.setEntry c (.dir sub'))
      | none => none
    | _ => none

/-- `os.Create` (truncate-create): the share root itself and its proper
ancestors are directories, so creation there fails. -/
def osCreate (fs : FileSys) (p : String) (size mt : Int) : Option FileSys :=
  match resolvePath p with
  | none => none
  | some pc =>
    if rootComps fs <+: pc then
      match createFileEntries fs.root (pc.drop (rootComps fs).length) size mt with
      | some root' => some { fs with root := root' }
      | none => none
    else none

/-- The per-file loop of `handleUpload` (share_server.go:1578-1621):
each destination is the validated target directory joined with
`filepath.Base` of the client-supplied filename; without delete
permission an existing entry at the destination is refused (403), and a
create failure aborts with 500.  Returns the status, the successfully
written destination paths in order, and the final filesystem. -/
def uploadLoop (permsDelete : Bool) (uploadDir : String) :
    List (String × Int) → FileSys → List String → Nat × List String × FileSys
  | [], fs, writes => (200, writes, fs)
  | (fname, size) :: rest, fs, writes =>
    let outPath := goJoin uploadDir (pathBase fname)
    if ¬permsDelete ∧ (osStat fs outPath).isSome then (403, writes, fs)
    else
      match osCreate fs outPath size 0 with
      | none => (500, writes, fs)
      | some fs' => uploadLoop permsDelete uploadDir rest fs' (writes ++ [outPath])

/-- `handleUpload` (share_server.go:1521-1628) after its `requireAuth`
gate, with the multipart body already parsed into the target sub-path
and the `(filename, size)` list (a parse failure's 400 path is before
this model). -/
def handleUpload (fs : FileSys) (permsWrite permsDelete : Bool)
    (targetPath : String) (files : List (String × Int)) :
    Nat × List String × FileSys :=
  if fs.rootPath = "" then (400, [], fs)
  else if ¬permsWrite then (403, [], fs)
  else
    let sj := safeJoin fs.rootPath targetPath
    if sj.2 = false then (403, [], fs)
    else
      match mkdirAll fs sj.1 with
      | none => (500, [], fs)
      | some fs1 =>
        if files = [] then (400, [], fs1)
        else uploadLoop permsDelete sj.1 files fs1 []

/-! ### C10: tree lemmas -/

theorem find_setEntry_self : ∀ (es : FEntries) (c : List Char) (v : FNode),
    (es.find c).isSome → (es.setEntry c v).find c = some v
  | .nil, c, v, h => by simp [FEntries.find] at h
  | .cons n node r, c, v, h => by
    show ((FEntries.cons n node r).setEntry c v).find c = some v
    unfold FEntries.setEntry
    by_cases hn : n.data = c
    · rw [if_pos hn]
      unfold FEntries.find
      rw [if_pos hn]
    · rw [if_neg hn]
      unfold FEntries.find
      rw [if_neg hn]
      refine find_setEntry_self r c v ?_
      unfold FEntries.find at h
      rw [if_neg hn] at h
      exact h

theorem find_setEntry_other : ∀ (es : FEntries) (c d : List Char) (v : FNode),
    d ≠ c → (es.setEntry c v).find d = es.find d
  | .nil, _, _, _, _ => rfl
  | .cons n node r, c, d, v, hne => by
    show ((FEntries.cons n node r).setEntry c v).find d = _
    unfold FEntries.setEntry
    by_cases hn : n.data = c
    · rw [if_pos hn]
      unfold FEntries.find
      rw [if_neg (by rw [hn]; exact fun h => hne h.symm),
        if_neg (by rw [hn]; exact fun h => hne h.symm)]
    · rw [if_neg hn]
      unfold FEntries.find
      by_cases hd : n.data = d
      · rw [if_pos hd, if_pos hd]
      · rw [if_neg hd, if_neg hd]
        exact find_setEntry_other r c d v hne

theorem find_addEntry_self : ∀ (es : FEntries) (c : List Char) (v : FNode),
    es.find c = none → (es.addEntry c v).find c = some v
  | .nil, c, v, h => by simp [FEntries.addEntry, FEntries.find]
  | .cons n node r, c, v, h => by
    show ((FEntries.cons n node r).addEntry c v).find c = some v
    unfold FEntries.addEntry FEntries.find
    unfold FEntries.find at h
    by_cases hn : n.data = c
    · rw [if_pos hn] at h
      exact absurd h (by simp)
    · rw [if_neg hn] at h ⊢
      exact find_addEntry_self r c v h

theorem find_addEntry_other : ∀ (es : FEntries) (c d : List Char) (v : FNode),
    d ≠ c → (es.addEntry c v).find d = es.find d
  | .nil, c, d, v, hne => by
    show ((FEntries.nil).addEntry c v).find d = _
    unfold FEntries.addEntry FEntries.find
    rw [if_neg (by simpa using fun h => hne h.symm)]
    rfl
  | .cons n node r, c, d, v, hne => by
    show ((FEntries.cons n node r).addEntry c v).find d = _
    unfold FEntries.addEntry FEntries.find
    by_cases hd : n.data = d
    · rw [if_pos hd, if_pos hd]
    · rw [if_neg hd, if_neg hd]
      exact find_addEntry_other r c d v hne

/-- `cs` points at a directory below `es`. -/
def dirAtInner (es : FEntries) (cs : List (List Char)) : Prop :=
  ∃ sub, lookupNode (.dir es) cs = some (.dir sub)

theorem mkdirAllEntries_lookup :
    ∀ (cs : List (List Char)) (es es' : FEntries),
      mkdirAllEntries es cs = some es' →
      ∀ cs', cs' <+: cs → dirAtInner es' cs' := by
  intro cs
  induction cs with
  | nil =>
    intro es es' h cs' hcs'
    rw [List.prefix_nil.1 hcs']
    simp only [mkdirAllEntries, Option.some.injEq] at h
    subst h
    exact ⟨es, rfl⟩
  | cons c rest ih =>
    intro es es' h cs' hcs'
    simp only [mkdirAllEntries] at h
    cases hf : es.find c with
    | some node =>
      simp only [hf] at h
      cases node with
      | dir sub =>
        cases hm : mkdirAllEntries sub rest with
        | none => exact absurd h (by simp [hm])
        | some sub' =>
          simp only [hm, Option.some.injEq] at h
          subst h
          cases cs' with
          | nil => exact ⟨_, rfl⟩
          | cons c0 rest' =>
            obtain ⟨h0, hrest'⟩ := (List.cons_prefix_cons).1 hcs'
            subst h0
            obtain ⟨s2, hs2⟩ := ih sub sub' hm rest' hrest'
            refine ⟨s2, ?_⟩
            show (match (es.setEntry c0 (.dir sub')).find c0 with
              | some n => lookupNode n rest' | none => none) = _
            rw [find_setEntry_self es c0 _ (by rw [hf]; rfl)]
            exact hs2
      | file sz mt => simp at h
      | symlink => simp at h
    | none =>
      simp only [hf] at h
      cases hm : mkdirAllEntries .nil rest with
      | none => exact absurd h (by simp [hm])
      | some sub' =>
        simp only [hm, Option.some.injEq] at h
        subst h
        cases cs' with
        | nil => exact ⟨_, rfl⟩
        | cons c0 rest' =>
          obtain ⟨h0, hrest'⟩ := (List.cons_prefix_cons).1 hcs'
          subst h0
          obtain ⟨s2, hs2⟩ := ih .nil sub' hm rest' hrest'
          refine ⟨s2, ?_⟩
          show (match (es.addEntry c0 (.dir sub')).find c0 with
            | some n => lookupNode n rest' | none => none) = _
          rw [find_addEntry_self es c0 _ hf]
          exact hs2

theorem createFileEntries_of_dir :
    ∀ (cs : List (List Char)) (es : FEntries) (sub : FEntries) (sz mt : Int),
      lookupNode (.dir es) cs = some (.dir sub) →
      createFileEntries es cs sz mt = none := by
  intro cs
  induction cs with
  | nil => intro es sub sz mt _; rfl
  | cons c rest ih =>
    intro es sub sz mt h
    have hl : (match es.find c with
        | some n => lookupNode n rest | none => none) = some (.dir sub) := h
    cases hf : es.find c with
    | none => rw [hf] at hl; exact absurd hl (by simp)
    | some node =>
      rw [hf] at hl
      cases rest with
      | nil =>
        -- one component: the entry itself is the directory
        simp only [lookupNode, Option.some.injEq] at hl
        subst hl
        simp only [createFileEntries, hf]
      | cons d rest2 =>
        cases node with
        | file s2 m2 => simp [lookupNode] at hl
        | symlink => simp [lookupNode] at hl
        | dir sub2 =>
          simp only [createFileEntries, hf]
          rw [ih sub2 sub sz mt hl]

theorem createFileEntries_preserves_dir :
    ∀ (inn : List (List Char)) (es es' : FEntries) (sz mt : Int),
      createFileEntries es inn sz mt = some es' →
      ∀ (pc : List (List Char)), dirAtInner es pc → dirAtInner es' pc := by
  intro inn
  induction inn with
  | nil => intro es es' sz mt h; exact absurd h (by simp [createFileEntries])
  | cons c rest ih =>
    intro es es' sz mt h pc hdir
    cases rest with
    | nil =>
      -- creation of the file entry `c` itself
      simp only [createFileEntries] at h
      cases hf : es.find c with
      | none =>
        simp only [hf, Option.some.injEq] at h
        subst h
        obtain ⟨sub, hsub⟩ := hdir
        cases pc with
        | nil => exact ⟨_, rfl⟩
        | cons c0 pcrest =>
          have hl : (match es.find c0 with
              | some n => lookupNode n pcrest | none => none) = some (.dir sub) := hsub
          by_cases hc0 : c0 = c
          · subst hc0
            rw [hf] at hl
            exact absurd hl (by simp)
          · refine ⟨sub, ?_⟩
            show (match (es.addEntry c (.file sz mt)).find c0 with
              | some n => lookupNode n pcrest | none => none) = _
            rw [find_addEntry_other es c c0 _ hc0]
            exact hl
      | some node =>
        simp only [hf] at h
        cases node with
        | dir s2 => exact absurd h (by simp)
        | file s2 m2 =>
          simp only [Option.some.injEq] at h
          subst h
          obtain ⟨sub, hsub⟩ := hdir
          cases pc with
          | nil => exact ⟨_, rfl⟩
          | cons c0 pcrest =>
            have hl : (match es.find c0 with
                | some n => lookupNode n pcrest | none => none) = some (.dir sub) := hsub
            by_cases hc0 : c0 = c
            · subst hc0
              rw [hf] at hl
              cases pcrest with
              | nil => simp [lookupNode] at hl
              | cons d r2 => simp [lookupNode] at hl
            · refine ⟨sub, ?_⟩
              show (match (es.setEntry c (.file sz mt)).find c0 with
                | some n => lookupNode n pcrest | none => none) = _
              rw [find_setEntry_other es c c0 _ hc0]
              exact hl
        | symlink =>
          simp only [Option.some.injEq] at h
          subst h
          obtain ⟨sub, hsub⟩ := hdir
          cases pc with
          | nil => exact ⟨_, rfl⟩
          | cons c0 pcrest =>
            have hl : (match es.find c0 with
                | some n => lookupNode n pcrest | none => none) = some (.dir sub) := hsub
            by_cases hc0 : c0 = c
            · subst hc0
              rw [hf] at hl
              cases pcrest with
              | nil => simp [lookupNode] at hl
              | cons d r2 => simp [lookupNode] at hl
            · refine ⟨sub, ?_⟩
              show (match (es.setEntry c (.file sz mt)).find c0 with
                | some n => lookupNode n pcrest | none => none) = _
              rw [find_setEntry_other es c c0 _ hc0]
              exact hl
    | cons d rest2 =>
      simp only [createFileEntries] at h
      cases hf : es.find c with
      | none => exact absurd h (by simp [hf])
      | some node =>
        simp only [hf] at h
        cases node with
        | file s2 m2 => exact absurd h (by simp)
        | symlink => exact absurd h (by simp)
        | dir sub2 =>
          cases hc2 : createFileEntries sub2 (d :: rest2) sz mt with
          | none => exact absurd h (by simp [hc2])
          | some sub2' =>
            simp only [hc2, Option.some.injEq] at h
            subst h
            obtain ⟨sub, hsub⟩ := hdir
            cases pc with
            | nil => exact ⟨_, rfl⟩
            | cons c0 pcrest =>
              have hl : (match es.find c0 with
                  | some n => lookupNode n pcrest | none => none) = some (.dir sub) := hsub
              by_cases hc0 : c0 = c
              · subst hc0
                rw [hf] at hl
                obtain ⟨s3, hs3⟩ := ih sub2 sub2' sz mt hc2 pcrest ⟨sub, hl⟩
                refine ⟨s3, ?_⟩
                show (match (es.setEntry c0 (.dir sub2')).find c0 with
                  | some n => lookupNode n pcrest | none => none) = _
                rw [find_setEntry_self es c0 _ (by rw [hf]; rfl)]
                exact hs3
              · refine ⟨sub, ?_⟩
                show (match (es.setEntry c (.dir sub2')).find c0 with
                  | some n => lookupNode n pcrest | none => none) = _
                rw [find_setEntry_other es c c0 _ hc0]
                exact hl

/-! ### C10: resolution of the joined destination path -/

theorem pathBase_spec (f : String) :
    pathBase f = "/" ∨ ((pathBase f).data ≠ [] ∧ '/' ∉ (pathBase f).data) := by
  unfold pathBase
  by_cases h0 : f = ""
  · rw [if_pos h0]
    right
    refine ⟨by decide, by decide⟩
  · rw [if_neg h0]
    by_cases h1 : (f.data.reverse.dropWhile (· = '/')).takeWhile (· ≠ '/') = []
    · rw [if_pos h1]
      exact Or.inl rfl
    · rw [if_neg h1]
      right
      constructor
      · show ¬(List.reverse _ = [])
        simpa using h1
      · intro hmem
        show False
        have hmem' : '/' ∈ (f.data.reverse.dropWhile (· = '/')).takeWhile (· ≠ '/') := by
          simpa using hmem
        have := List.mem_takeWhile_imp hmem'
        simp at this

theorem processAbs_eq_cleanStack (cs : List (List Char)) :
    processAbs cs = cleanStack true cs := rfl

theorem resolvePath_goJoin (up b : String) (tu : List Char) (hupd : up.data = '/' :: tu) :
    resolvePath (goJoin up b)
      = some ((splitSlashCs b.data).foldl (cleanStep true)
          (cleanStack true (splitSlashCs up.data))) := by
  have hne : up ≠ "" := by
    intro h
    rw [h] at hupd
    simp at hupd
  unfold goJoin
  rw [if_neg hne]
  have hdata : (up ++ "/" ++ b).data = up.data ++ '/' :: b.data := by
    rw [data_append, data_append]
    simp [List.append_assoc]
  have hrootedX : (up ++ "/" ++ b).data = '/' :: (tu ++ '/' :: b.data) := by
    rw [hdata, hupd]
    rfl
  rw [(resolvePath_clean_rooted (up ++ "/" ++ b) _ hrootedX).2]
  congr 1
  rw [hdata, splitSlash_append]
  unfold cleanStack
  rw [List.foldl_append]

theorem joinComps_last_ne_slash :
    ∀ (st : List (List Char)), st ≠ [] → (∀ x ∈ st, x ≠ [] ∧ '/' ∉ x) →
      ∃ ys c, joinComps st = ys ++ [c] ∧ c ≠ '/'
  | [], hst, _ => absurd rfl hst
  | [x], _, h => by
    obtain ⟨hx, hs⟩ := h x (by simp)
    refine ⟨x.dropLast, x.getLast hx, ?_, ?_⟩
    · show x = _
      exact (List.dropLast_append_getLast hx).symm
    · intro hc
      exact hs (hc ▸ List.getLast_mem hx)
  | x :: y :: r, _, h => by
    obtain ⟨ys, c, hj, hc⟩ := joinComps_last_ne_slash (y :: r) (by simp)
      (fun z hz => h z (by simp [hz]))
    refine ⟨x ++ '/' :: ys, c, ?_, hc⟩
    show x ++ '/' :: joinComps (y :: r) = _
    rw [hj]
    simp

theorem strEndsWith_iff (s p : String) :
    strEndsWith s p = true ↔ p.data <:+ s.data :=
  List.isSuffixOf_iff_suffix

/-- A successful `safeJoin` lands, component-wise, at or below the
root's resolved components. -/
theorem safeJoin_resolve_in_root (rootPath sub : String) (tr : List Char)
    (hrootd : rootPath.data = '/' :: tr)
    (hok : (safeJoin rootPath sub).2 = true) :
    ∃ extra, resolvePath (safeJoin rootPath sub).1
      = some (processAbs (splitSlashCs rootPath.data) ++ extra) := by
  have hrooted : strStartsWith rootPath "/" = true :=
    (strStartsWith_slash_iff rootPath).2 ⟨tr, hrootd⟩
  have hRrooted := pathClean_rooted rootPath hrooted
  have hRstack : resolvePath (pathClean rootPath)
      = some (cleanStack true (splitSlashCs rootPath.data)) :=
    (resolvePath_clean_rooted rootPath tr hrootd).2
  have hRgood : ∀ x ∈ cleanStack true (splitSlashCs rootPath.data), goodComp x :=
    cleanStackTrue_good _ [] (by simp) (mem_splitSlash_no_slash _)
  have hXrooted : strStartsWith
      (goJoin (pathClean rootPath) (goTrimSpace sub)) "/" = true := by
    unfold goJoin
    rw [if_neg (pathClean_ne_empty rootPath)]
    apply pathClean_rooted
    obtain ⟨t, ht⟩ := (strStartsWith_slash_iff _).1 hRrooted
    exact (strStartsWith_slash_iff _).2 ⟨_, by
      rw [data_append, data_append, ht]; rfl⟩
  obtain ⟨tX, hXd⟩ := (strStartsWith_slash_iff _).1 hXrooted
  have hfull : resolvePath (pathClean (goJoin (pathClean rootPath) (goTrimSpace sub)))
      = some (cleanStack true (splitSlashCs
          (goJoin (pathClean rootPath) (goTrimSpace sub)).data)) :=
    (resolvePath_clean_rooted (goJoin (pathClean rootPath) (goTrimSpace sub)) tX hXd).2
  have hXgood : ∀ x ∈ cleanStack true (splitSlashCs
      (goJoin (pathClean rootPath) (goTrimSpace sub)).data), goodComp x :=
    cleanStackTrue_good _ [] (by simp) (mem_splitSlash_no_slash _)
  unfold safeJoin
  by_cases h1 : pathClean (goJoin (pathClean rootPath) (goTrimSpace sub))
      = pathClean rootPath
  · simp only [if_pos h1]
    refine ⟨[], ?_⟩
    rw [List.append_nil, h1]
    exact hRstack
  · by_cases h2 : strStartsWith (pathClean (goJoin (pathClean rootPath) (goTrimSpace sub)))
        (safeJoinPre (pathClean rootPath)) = true
    · simp only [if_neg h1, if_pos h2]
      rw [hfull]
      by_cases hR0 : cleanStack true (splitSlashCs rootPath.data) = []
      · refine ⟨cleanStack true (splitSlashCs
            (goJoin (pathClean rootPath) (goTrimSpace sub)).data), ?_⟩
        rw [processAbs_eq_cleanStack, hR0, List.nil_append]
      · have hRrender : (pathClean rootPath).data
            = '/' :: joinComps (cleanStack true (splitSlashCs rootPath.data)) := by
          rw [pathClean_data_cons '/' tr rootPath hrootd]
          simp only [beq_self_eq_true, if_true]
          rw [← hrootd, if_neg hR0]
        have hnotslash : strEndsWith (pathClean rootPath) "/" = false := by
          obtain ⟨ys, c, hj, hc⟩ := joinComps_last_ne_slash _ hR0
            (fun x hx => ⟨(hRgood x hx).1, (hRgood x hx).2.2.2⟩)
          rw [Bool.eq_false_iff]
          intro hsuf
          obtain ⟨t0, ht0⟩ := (strEndsWith_iff _ _).1 hsuf
          have h5 : (t0 ++ ("/" : String).data).getLast? = some '/' := by
            rw [show ("/" : String).data = ['/'] from rfl, List.getLast?_append_cons]
            rfl
          rw [ht0, hRrender, hj] at h5
          have h6 : (('/' :: ys) ++ [c]).getLast? = some c := by
            rw [List.getLast?_append_cons]
            rfl
          rw [show ('/' : Char) :: (ys ++ [c]) = ('/' :: ys) ++ [c] from rfl] at h5
          rw [h6] at h5
          exact hc (Option.some.inj h5)
        have hpre : safeJoinPre (pathClean rootPath) = pathClean rootPath ++ "/" := by
          unfold safeJoinPre
          rw [hnotslash]
          simp
        rw [hpre] at h2
        obtain ⟨rest, hrest⟩ := (strStartsWith_iff _ _).1 h2
        rw [data_append, hRrender] at hrest
        have hrest' : ('/' :: joinComps (cleanStack true (splitSlashCs rootPath.data)))
            ++ '/' :: rest
            = (pathClean (goJoin (pathClean rootPath) (goTrimSpace sub))).data := by
          rw [← hrest]
          simp
        by_cases hX0 : cleanStack true (splitSlashCs
            (goJoin (pathClean rootPath) (goTrimSpace sub)).data) = []
        · exfalso
          have hfd : (pathClean (goJoin (pathClean rootPath) (goTrimSpace sub))).data
              = ['/'] := by
            rw [pathClean_data_cons '/' tX _ hXd]
            simp only [beq_self_eq_true, if_true]
            rw [← hXd, if_pos hX0]
          rw [hfd] at hrest'
          have htail := congrArg List.tail hrest'
          simp at htail
        · have hXrender : (pathClean (goJoin (pathClean rootPath) (goTrimSpace sub))).data
              = '/' :: joinComps (cleanStack true (splitSlashCs
                  (goJoin (pathClean rootPath) (goTrimSpace sub)).data)) := by
            rw [pathClean_data_cons '/' tX _ hXd]
            simp only [beq_self_eq_true, if_true]
            rw [← hXd, if_neg hX0]
          rw [hXrender] at hrest'
          have hjoin : joinComps (cleanStack true (splitSlashCs rootPath.data))
                ++ '/' :: rest
              = joinComps (cleanStack true (splitSlashCs
                  (goJoin (pathClean rootPath) (goTrimSpace sub)).data)) := by
            have := congrArg List.tail hrest'
            simpa using this
          have hsplit := congrArg splitSlashCs hjoin
          rw [splitSlash_append,
            splitSlash_joinComps _ hR0 (fun x hx => (hRgood x hx).2.2.2),
            splitSlash_joinComps _ hX0 (fun x hx => (hXgood x hx).2.2.2)] at hsplit
          refine ⟨splitSlashCs rest, ?_⟩
          rw [processAbs_eq_cleanStack, hsplit]
    · exfalso
      unfold safeJoin at hok
      simp only [if_neg h1, if_neg h2] at hok
      exact absurd hok (by simp)


/-! ### C10: the upload loop never escapes the target directory -/

theorem resolvePath_good (p : String) (pc : List (List Char))
    (h : resolvePath p = some pc) : ∀ x ∈ pc, goodComp x := by
  unfold resolvePath at h
  split at h
  · simp only [Option.some.injEq] at h
    subst h
    exact cleanStackTrue_good _ [] (by simp) (mem_splitSlash_no_slash _)
  · exact absurd h (by simp)

theorem resolvePath_some_rooted (p : String) (pc : List (List Char))
    (h : resolvePath p = some pc) : ∃ t, p.data = '/' :: t := by
  unfold resolvePath at h
  split at h
  · next t heq => exact ⟨t, heq⟩
  · exact absurd h (by simp)

theorem isPre_drop {α : Type} (n : Nat) (l1 l2 : List α) (h : l1 <+: l2) :
    l1.drop n <+: l2.drop n := by
  obtain ⟨t, rfl⟩ := h
  rw [List.drop_append_eq_append_drop]
  exact List.prefix_append _ _

/-- `os.Create` fails when the destination resolves to a spot the
directory invariant marks as a directory (or to a spot outside the
root's subtree). -/
theorem osCreate_at_dir_none (fs : FileSys) (p : String)
    (upStack : List (List Char)) (size : Int)
    (hRes1 : resolvePath p = some upStack)
    (hInv : rootComps fs <+: upStack →
      ∀ cs', cs' <+: upStack.drop (rootComps fs).length → dirAtInner fs.root cs') :
    osCreate fs p size 0 = none := by
  unfold osCreate
  simp only [hRes1]
  by_cases hpre : rootComps fs <+: upStack
  · rw [if_pos hpre]
    obtain ⟨sub, hsub⟩ := hInv hpre _ (List.prefix_refl _)
    rw [createFileEntries_of_dir _ _ sub size 0 hsub]
  · rw [if_neg hpre]

/-- One upload write: if `os.Create` at `Join(uploadDir, Base(fname))`
succeeds, the base was a normal single component, the destination
resolves exactly one component below the upload directory, and the
root path and the directory invariant survive. -/
theorem osCreate_step (fs : FileSys) (up b : String) (upStack : List (List Char))
    (size : Int) (tu : List Char) (hupd : up.data = '/' :: tu)
    (hres : resolvePath up = some upStack)
    (hgood : ∀ x ∈ upStack, goodComp x)
    (hInv : rootComps fs <+: upStack →
      ∀ cs', cs' <+: upStack.drop (rootComps fs).length → dirAtInner fs.root cs')
    (fs' : FileSys)
    (hcr : osCreate fs (goJoin up (pathBase b)) size 0 = some fs') :
    (pathBase b).data ≠ [] ∧ (pathBase b).data ≠ ['.'] ∧
    (pathBase b).data ≠ ['.', '.'] ∧ '/' ∉ (pathBase b).data ∧
    resolvePath (goJoin up (pathBase b)) = some (upStack ++ [(pathBase b).data]) ∧
    fs'.rootPath = fs.rootPath ∧
    (rootComps fs <+: upStack →
      ∀ cs', cs' <+: upStack.drop (rootComps fs).length → dirAtInner fs'.root cs') := by
  have hupStack : cleanStack true (splitSlashCs up.data) = upStack :=
    Option.some.inj (((resolvePath_clean_rooted up tu hupd).1).symm.trans hres)
  have hRes0 : resolvePath (goJoin up (pathBase b))
      = some ((splitSlashCs (pathBase b).data).foldl (cleanStep true) upStack) := by
    rw [resolvePath_goJoin up (pathBase b) tu hupd, hupStack]
  rcases pathBase_spec b with hb | ⟨hne, hnoslash⟩
  · -- `Base` returned "/": the destination is the upload directory itself
    exfalso
    have hRes1 : resolvePath (goJoin up (pathBase b)) = some upStack := by
      rw [hRes0, hb]
      congr 1
    rw [osCreate_at_dir_none fs _ upStack size hRes1 hInv] at hcr
    exact Option.noConfusion hcr
  · have hsplit : splitSlashCs (pathBase b).data = [(pathBase b).data] :=
      splitSlash_no_slash _ hnoslash
    by_cases hdot : (pathBase b).data = ['.']
    · -- `Base` returned ".": again the upload directory itself
      exfalso
      have hRes1 : resolvePath (goJoin up (pathBase b)) = some upStack := by
        rw [hRes0, hsplit]
        congr 1
        show cleanStep true upStack (pathBase b).data = upStack
        unfold cleanStep
        rw [if_pos (by rw [hdot]; decide)]
      rw [osCreate_at_dir_none fs _ upStack size hRes1 hInv] at hcr
      exact Option.noConfusion hcr
    · by_cases hdd : (pathBase b).data = ['.', '.']
      · -- `Base` returned "..": the destination is above the upload directory
        exfalso
        cases hlast : upStack.getLast? with
        | none =>
          have hup0 : upStack = [] := by
            cases hu : upStack with
            | nil => rfl
            | cons a t =>
              rw [hu, List.getLast?_eq_getLast_of_ne_nil (by simp)] at hlast
              exact absurd hlast (by simp)
          have hRes1 : resolvePath (goJoin up (pathBase b)) = some [] := by
            rw [hRes0, hup0, hdd]
            decide
          have hInvN : rootComps fs <+: ([] : List (List Char)) →
              ∀ cs', cs' <+: (([] : List (List Char)).drop (rootComps fs).length) →
                dirAtInner fs.root cs' := by
            intro _ cs' hcs'
            rw [List.drop_nil] at hcs'
            rw [List.prefix_nil.1 hcs']
            exact ⟨fs.root, rfl⟩
          rw [osCreate_at_dir_none fs _ [] size hRes1 hInvN] at hcr
          exact Option.noConfusion hcr
        | some t =>
          have htmem : t ∈ upStack :=
            List.mem_of_mem_getLast? (by rw [hlast]; rfl)
          have ht : t ≠ ['.', '.'] := (hgood t htmem).2.2.1
          have hdlp : upStack.dropLast <+: upStack := List.dropLast_prefix upStack
          have hRes1 : resolvePath (goJoin up (pathBase b)) = some upStack.dropLast := by
            rw [hRes0, hsplit]
            congr 1
            show cleanStep true upStack (pathBase b).data = upStack.dropLast
            unfold cleanStep
            rw [if_neg (by rw [hdd]; decide), if_pos hdd]
            simp only [hlast]
            rw [if_neg ht]
          have hInvD : rootComps fs <+: upStack.dropLast →
              ∀ cs', cs' <+: upStack.dropLast.drop (rootComps fs).length →
                dirAtInner fs.root cs' := by
            intro hpre cs' hcs'
            exact hInv (hpre.trans hdlp) cs'
              (hcs'.trans (isPre_drop _ _ _ hdlp))
          rw [osCreate_at_dir_none fs _ upStack.dropLast size hRes1 hInvD] at hcr
          exact Option.noConfusion hcr
      · -- a normal component: the write lands one component below `up`
        have hRes2 : resolvePath (goJoin up (pathBase b))
            = some (upStack ++ [(pathBase b).data]) := by
          rw [hRes0, hsplit]
          congr 1
          show cleanStep true upStack (pathBase b).data = upStack ++ [(pathBase b).data]
          unfold cleanStep
          rw [if_neg (by simp [hne, hdot]), if_neg hdd]
        unfold osCreate at hcr
        simp only [hRes2] at hcr
        by_cases hpre : rootComps fs <+: upStack ++ [(pathBase b).data]
        · rw [if_pos hpre] at hcr
          cases hcf : createFileEntries fs.root
              ((upStack ++ [(pathBase b).data]).drop (rootComps fs).length) size 0 with
          | none =>
            rw [hcf] at hcr
            exact absurd hcr (by simp)
          | some root' =>
            rw [hcf] at hcr
            simp only [Option.some.injEq] at hcr
            subst hcr
            refine ⟨hne, hdot, hdd, hnoslash, hRes2, rfl, ?_⟩
            intro hpreUp cs' hcs'
            exact createFileEntries_preserves_dir _ _ _ _ _ hcf cs' (hInv hpreUp cs' hcs')
        · rw [if_neg hpre] at hcr
          exact absurd hcr (by simp)

/-- Every path the upload loop reports as written is the upload
directory joined with the flattened base name of one of the request's
files, and resolves exactly one normal component below it. -/
theorem uploadLoop_writes (permsDelete : Bool) (up : String) (tu : List Char)
    (upStack : List (List Char)) (hupd : up.data = '/' :: tu)
    (hres : resolvePath up = some upStack)
    (hgood : ∀ x ∈ upStack, goodComp x) :
    ∀ (files : List (String × Int)) (fs : FileSys) (writes : List String),
      (rootComps fs <+: upStack →
        ∀ cs', cs' <+: upStack.drop (rootComps fs).length → dirAtInner fs.root cs') →
      ∀ w ∈ (uploadLoop permsDelete up files fs writes).2.1,
        w ∈ writes ∨ ∃ f ∈ files, w = goJoin up (pathBase f.1) ∧
          ∃ bb, resolvePath w = some (upStack ++ [bb]) ∧
            bb ≠ [] ∧ bb ≠ ['.'] ∧ bb ≠ ['.', '.'] ∧ '/' ∉ bb := by
  intro files
  induction files with
  | nil =>
    intro fs writes _ w hw
    exact Or.inl hw
  | cons p rest ih =>
    obtain ⟨fname, size⟩ := p
    intro fs writes hInv w hw
    simp only [uploadLoop] at hw
    by_cases hstop : ¬permsDelete ∧ (osStat fs (goJoin up (pathBase fname))).isSome
    · rw [if_pos hstop] at hw
      exact Or.inl hw
    · rw [if_neg hstop] at hw
      cases hcr : osCreate fs (goJoin up (pathBase fname)) size 0 with
      | none =>
        simp only [hcr] at hw
        exact Or.inl hw
      | some fs' =>
        simp only [hcr] at hw
        obtain ⟨hne, hdot, hdd, hnos, hRes, hrootEq, hInv'⟩ :=
          osCreate_step fs up fname upStack size tu hupd hres hgood hInv fs' hcr
        have hRCeq : rootComps fs' = rootComps fs := by
          unfold rootComps
          rw [hrootEq]
        have hInv2 : rootComps fs' <+: upStack →
            ∀ cs', cs' <+: upStack.drop (rootComps fs').length → dirAtInner fs'.root cs' := by
          rw [hRCeq]
          exact hInv'
        rcases ih fs' (writes ++ [goJoin up (pathBase fname)]) hInv2 w hw with h1 | h1
        · rcases List.mem_append.1 h1 with h2 | h2
          · exact Or.inl h2
          · have hw2 : w = goJoin up (pathBase fname) := by simpa using h2
            subst hw2
            exact Or.inr ⟨(fname, size), by simp,
              rfl, (pathBase fname).data, hRes, hne, hdot, hdd, hnos⟩
        · obtain ⟨f, hf, hfw⟩ := h1
          exact Or.inr ⟨f, by simp [hf], hfw⟩

/-- C10: every file `POST /api/upload` writes lands at the
sandbox-validated target directory joined with only the base name of
the client-supplied filename: separators and `..` segments in the
filename are flattened away, and the written path resolves exactly one
normal component below the target directory, itself at or below the
shared root. -/
theorem upload_flattens_filenames (fs : FileSys) (permsDelete : Bool)
    (targetPath : String) (files : List (String × Int)) (tr : List Char)
    (hrootd : fs.rootPath.data = '/' :: tr) :
    ∀ w ∈ (handleUpload fs true permsDelete targetPath files).2.1,
      ∃ f ∈ files, w = goJoin (safeJoin fs.rootPath targetPath).1 (pathBase f.1) ∧
        ∃ upStack bb,
          resolvePath (safeJoin fs.rootPath targetPath).1 = some upStack ∧
          rootComps fs <+: upStack ∧
          resolvePath w = some (upStack ++ [bb]) ∧
          bb ≠ [] ∧ bb ≠ ['.'] ∧ bb ≠ ['.', '.'] ∧ '/' ∉ bb := by
  intro w hw
  have h0 : fs.rootPath ≠ "" := by
    intro h
    rw [h] at hrootd
    simp at hrootd
  simp only [handleUpload] at hw
  rw [if_neg h0, if_neg (not_not_intro trivial)] at hw
  by_cases hokf : (safeJoin fs.rootPath targetPath).2 = false
  · rw [if_pos hokf] at hw
    simp at hw
  · rw [if_neg hokf] at hw
    have hok : (safeJoin fs.rootPath targetPath).2 = true := by
      cases h : (safeJoin fs.rootPath targetPath).2 with
      | true => rfl
      | false => exact absurd h hokf
    obtain ⟨extra, hres⟩ := safeJoin_resolve_in_root fs.rootPath targetPath tr hrootd hok
    have hRC : rootComps fs = processAbs (splitSlashCs fs.rootPath.data) := rfl
    rw [← hRC] at hres
    obtain ⟨tu, hupd⟩ := resolvePath_some_rooted _ _ hres
    have hgood : ∀ x ∈ rootComps fs ++ extra, goodComp x :=
      resolvePath_good _ _ hres
    cases hmk : mkdirAll fs (safeJoin fs.rootPath targetPath).1 with
    | none =>
      simp only [hmk] at hw
      simp at hw
    | some fs1 =>
      simp only [hmk] at hw
      by_cases hfe : files = []
      · rw [if_pos hfe] at hw
        simp at hw
      · rw [if_neg hfe] at hw
        -- unpack `mkdirAll` to recover the directory invariant for `fs1`
        unfold mkdirAll at hmk
        simp only [hres] at hmk
        rw [if_pos (List.prefix_append _ _)] at hmk
        rw [List.drop_left] at hmk
        cases hmka : mkdirAllEntries fs.root extra with
        | none =>
          rw [hmka] at hmk
          exact absurd hmk (by simp)
        | some root' =>
          rw [hmka] at hmk
          simp only [Option.some.injEq] at hmk
          subst hmk
          have hInv1 : rootComps ({ fs with root := root' } : FileSys) <+: rootComps fs ++ extra →
              ∀ cs', cs' <+: (rootComps fs ++ extra).drop
                  (rootComps ({ fs with root := root' } : FileSys)).length →
                dirAtInner root' cs' := by
            intro _ cs' hcs'
            rw [show (rootComps ({ fs with root := root' } : FileSys)).length
                = (rootComps fs).length from rfl, List.drop_left] at hcs'
            exact mkdirAllEntries_lookup extra fs.root root' hmka cs' hcs'
          rcases uploadLoop_writes permsDelete (safeJoin fs.rootPath targetPath).1 tu
              (rootComps fs ++ extra) hupd hres hgood files
              ({ fs with root := root' } : FileSys) [] hInv1 w hw with h1 | h1
          · simp at h1
          · obtain ⟨f, hf, hfw⟩ := h1
            obtain ⟨hfw1, bb, hbw, hb1, hb2, hb3, hb4⟩ := hfw
            exact ⟨f, hf, hfw1, rootComps fs ++ extra, bb, hres,
              List.prefix_append _ _, hbw, hb1, hb2, hb3, hb4⟩

theorem upload_flattens_filenames_witness :
    ∃ f ∈ [("../../etc/passwd", (9 : Int))],
      "/share/up/passwd" = goJoin (safeJoin "/share" "up").1 (pathBase f.1) ∧
      ∃ upStack bb,
        resolvePath (safeJoin "/share" "up").1 = some upStack ∧
        rootComps ⟨"/share", .nil⟩ <+: upStack ∧
        resolvePath "/share/up/passwd" = some (upStack ++ [bb]) ∧
        bb ≠ [] ∧ bb ≠ ['.'] ∧ bb ≠ ['.', '.'] ∧ '/' ∉ bb :=
  upload_flattens_filenames ⟨"/share", .nil⟩ true "up" [("../../etc/passwd", 9)]
    "share".data (by decide) "/share/up/passwd" (by decide)

end LocalShare
